import Mathlib

/-!
Verification of the EigenTrust dynamic trust-set engine
(circuit/src/dynamic_sets/native.rs).

The engine is embedded shallowly:

* `PublicKey` is an opaque, equality-comparable identity; we model it as `Nat`
  with `nullPk = 0` playing the role of `PublicKey::default()` (the NULL
  sentinel for an empty slot).
* The score field `Fr` (the BN254 scalar field) is modelled by an arbitrary
  `Field F` with decidable equality; the Rust `invert().unwrap_or(zero)` is
  `invOrZero`, which agrees with the Lean field convention `0⁻¹ = 0`.
  Hypotheses of the form `∀ m, 0 < m → m ≤ N → (m : F) ≠ 0` stand in for the
  fact that `NUM_NEIGHBOURS` (a `usize`) is far below the characteristic of
  `Fr`.
* `HashMap<PublicKey, Opinion>` is modelled as an association list with
  overwrite-on-insert (`insertMap`) and first-match lookup (`List.lookup`);
  the Rust code never iterates a map, it only gets/inserts/removes, so this
  is observationally faithful.
* A Rust `assert!` failure or `unwrap()` panic is modelled by `none`; the
  fallible operations therefore return `Option`.
* Loops `for j in 0..NUM_NEIGHBOURS` indexing two length-`NUM_NEIGHBOURS`
  sequences are modelled by `List.zipWith` / `mapOpt` over `List.range`;
  every theorem below carries the length hypotheses (`set` has length `N`,
  every stored opinion has exactly `N` score entries) under which this is
  exact, matching the specification invariant that malformed submissions are
  a caller error.
-/

/-- NULL sentinel identity, standing for `PublicKey::default()`. -/
def nullPk : Nat := 0

/-- Opinion info of a peer: signature, message hash and the score row,
mirroring `struct Opinion` (sig components are opaque field elements). -/
structure Opinion (F : Type) where
  sig : F × F × F
  message_hash : F
  scores : List (Nat × F)
deriving DecidableEq

/-- Default opinion, mirroring `impl Default for Opinion`: zero signature,
zero hash, `NUM_NEIGHBOURS` copies of `(PublicKey::default(), Fr::zero())`. -/
def defaultOpinion (F : Type) [Field F] (N : Nat) : Opinion F :=
  ⟨(0, 0, 0), 0, List.replicate N (nullPk, 0)⟩

/-- Dynamic set for EigenTrust, mirroring `struct EigenTrustSet`:
`set` is the slot table of (identity, score) pairs and `ops` the map from
member identity to its latest opinion. -/
structure EigenTrustSet (F : Type) where
  set : List (Nat × F)
  ops : List (Nat × Opinion F)
deriving DecidableEq

/-- Map insert with overwrite, the association-list rendering of
`HashMap::insert`. -/
def insertMap {F : Type} (m : List (Nat × Opinion F)) (k : Nat) (v : Opinion F) :
    List (Nat × Opinion F) :=
  (k, v) :: m.filter (fun kv => kv.1 != k)

/-- Constructor `EigenTrustSet::new`: `NUM_NEIGHBOURS` NULL slots with zero
score and an empty opinion map. -/
def newSet (F : Type) [Field F] (N : Nat) : EigenTrustSet F :=
  ⟨List.replicate N (nullPk, 0), []⟩

/-- Mirror of `add_member`: panics (`none`) when `pk` already occupies a slot,
otherwise writes `(pk, INITIAL_SCORE)` into the first NULL slot, panicking
when no NULL slot exists.  `iscore` is the already-converted
`Fr::from_u128(INITIAL_SCORE)`. -/
def add_member {F : Type} [Field F] (iscore : F) (s : EigenTrustSet F) (pk : Nat) :
    Option (EigenTrustSet F) :=
  match s.set.findIdx? (fun x => x.1 == pk) with
  | some _ => none
  | none =>
    match s.set.findIdx? (fun x => x.1 == nullPk) with
    | none => none
    | some index => some ⟨s.set.set index (pk, iscore), s.ops⟩

/-- Mirror of `remove_member`: panics (`none`) when `pk` is not a member,
otherwise resets its slot to `(PublicKey::default(), Fr::zero())` and removes
its opinion from the map. -/
def remove_member {F : Type} [Field F] (s : EigenTrustSet F) (pk : Nat) :
    Option (EigenTrustSet F) :=
  match s.set.findIdx? (fun x => x.1 == pk) with
  | none => none
  | some index =>
    some ⟨s.set.set index (nullPk, 0), s.ops.filter (fun kv => kv.1 != pk)⟩

/-- Mirror of `update_op`: panics (`none`) when the submitter is not a member,
otherwise stores/overwrites its opinion. -/
def update_op {F : Type} [Field F] (s : EigenTrustSet F) (fromPk : Nat)
    (op : Opinion F) : Option (EigenTrustSet F) :=
  match s.set.findIdx? (fun x => x.1 == fromPk) with
  | none => none
  | some _ => some ⟨s.set, insertMap s.ops fromPk op⟩

/-- Body of the alignment loop of `filter_peers_ops` at one position `j`:
`setJ` is the canonical slot `self.set[j]`, `opJ` the submitted entry
`ops_i.scores[j]`.  The score is nullified when the identities differ, the
canonical identity is NULL, or it equals the submitter; a differing identity
is overwritten with the canonical one. -/
def correctEntry {F : Type} [Field F] (pkI : Nat) (setJ : Nat × F) (opJ : Nat × F) :
    Nat × F :=
  let isDiff := setJ.1 ≠ opJ.1
  let isNull := setJ.1 = nullPk
  let isSelf := setJ.1 = pkI
  (if isDiff then setJ.1 else opJ.1,
   if isDiff ∨ isNull ∨ isSelf then 0 else opJ.2)

/-- Alignment pass (steps 1–2 of sanitization) of `filter_peers_ops` for the
submitter `pkI`, position by position against the canonical slot table. -/
def correctScores {F : Type} [Field F] (pkI : Nat) (set : List (Nat × F))
    (scores : List (Nat × F)) : List (Nat × F) :=
  List.zipWith (correctEntry pkI) set scores

/-- Zero-sum redistribution fallback of `filter_peers_ops`: when the corrected
scores sum to zero, every position holding another non-NULL identity gets
score 1. -/
def distributeScores {F : Type} [Field F] [DecidableEq F] (pkI : Nat)
    (scores : List (Nat × F)) : List (Nat × F) :=
  let opScoreSum := (scores.map Prod.snd).sum
  if opScoreSum = 0 then
    scores.map (fun kv => if kv.1 ≠ pkI ∧ kv.1 ≠ nullPk then (kv.1, 1) else kv)
  else scores

/-- Sanitized opinion of member `pkI`, as built by one iteration of the outer
loop of `filter_peers_ops`: take the stored opinion (or the default one),
align it against the canonical slot table, then apply the zero-sum fallback. -/
def filterOpinion {F : Type} [Field F] [DecidableEq F] (set : List (Nat × F))
    (ops : List (Nat × Opinion F)) (N : Nat) (pkI : Nat) : Opinion F :=
  let opI := (List.lookup pkI ops).getD (defaultOpinion F N)
  { opI with scores := distributeScores pkI (correctScores pkI set opI.scores) }

/-- Fold of the outer loop of `filter_peers_ops` over the slot table `l`,
skipping NULL slots and inserting each member's sanitized opinion. -/
def filterFold {F : Type} [Field F] [DecidableEq F] (set : List (Nat × F))
    (ops : List (Nat × Opinion F)) (N : Nat) :
    List (Nat × F) → List (Nat × Opinion F) → List (Nat × Opinion F)
  | [], acc => acc
  | slot :: rest, acc =>
    filterFold set ops N rest
      (if slot.1 = nullPk then acc
       else insertMap acc slot.1 (filterOpinion set ops N slot.1))

/-- Mirror of `filter_peers_ops`: the sanitized-opinion map. -/
def filter_peers_ops {F : Type} [Field F] [DecidableEq F] (N : Nat)
    (s : EigenTrustSet F) : List (Nat × Opinion F) :=
  filterFold s.set s.ops N s.set []

/-- Mirror of `invert().unwrap_or(Fr::zero())`. -/
def invOrZero {F : Type} [Field F] [DecidableEq F] (x : F) : F :=
  if x = 0 then 0 else x⁻¹

/-- Row-stochastic normalization of one opinion, as done in the first loop of
`converge`: every score is multiplied by the inverse of the row sum (zero when
the sum is zero). -/
def normalizeOpinion {F : Type} [Field F] [DecidableEq F] (op : Opinion F) :
    Opinion F :=
  let opScoreSum := (op.scores.map Prod.snd).sum
  let invSum := invOrZero opScoreSum
  { op with scores := op.scores.map (fun kv => (kv.1, kv.2 * invSum)) }

/-- Normalization loop of `converge` over the slot table: each non-NULL slot
looks up its opinion in the filtered map (`unwrap` panic modelled by `none`)
and overwrites it with the normalized one. -/
def normFold {F : Type} [Field F] [DecidableEq F] :
    List (Nat × F) → List (Nat × Opinion F) → Option (List (Nat × Opinion F))
  | [], m => some m
  | slot :: rest, m =>
    if slot.1 = nullPk then normFold rest m
    else
      match List.lookup slot.1 m with
      | none => none
      | some op => normFold rest (insertMap m slot.1 (normalizeOpinion op))

/-- Option-valued map, the rendering of a Rust loop that pushes one result per
element and panics (`none`) if any step panics. -/
def mapOpt {α β : Type} (f : α → Option β) : List α → Option (List β)
  | [] => some []
  | a :: l =>
    match f a, mapOpt f l with
    | some b, some bs => some (b :: bs)
    | _, _ => none

/-- Contribution row `sop_i` of a non-NULL slot in one iteration of
`converge`: entry `j` is `op_i.scores[j].1 * n_score` (indexing panic when the
score row is shorter than `NUM_NEIGHBOURS` modelled by `none`). -/
def contribRow {F : Type} [Field F] (N : Nat) (op : Opinion F) (si : F) :
    Option (List F) :=
  mapOpt (fun j => (op.scores[j]?).map (fun kv => kv.2 * si)) (List.range N)

/-- New score vector from the contribution matrix: `s[i] = Σ_j sop[j][i]`,
as in the second inner loop of `converge`.  All rows of `sop` have length `N`
by construction, so the `getD` default is never consulted. -/
def nextScores {F : Type} [Field F] (N : Nat) (sop : List (List F)) : List F :=
  (List.range N).map (fun i => (sop.map (fun row => row.getD i 0)).sum)

/-- One iteration of the power loop of `converge`: build the contribution
rows (NULL slots contribute a zero row, non-NULL slots look up their
normalized opinion — `unwrap` panic is `none`), then sum columns. -/
def convergeRound {F : Type} [Field F] [DecidableEq F] (N : Nat)
    (set : List (Nat × F)) (filtered : List (Nat × Opinion F)) (svec : List F) :
    Option (List F) :=
  match mapOpt
      (fun p =>
        if p.1.1 = nullPk then some (List.replicate N (0 : F))
        else
          match List.lookup p.1.1 filtered with
          | none => none
          | some op => contribRow N op p.2)
      (List.zip set svec) with
  | none => none
  | some sop => some (nextScores N sop)

/-- Fixed-count power iteration of `converge` (`for _ in 0..NUM_ITERATIONS`). -/
def powerIter {F : Type} [Field F] [DecidableEq F] (N : Nat)
    (set : List (Nat × F)) (filtered : List (Nat × Opinion F)) :
    Nat → List F → Option (List F)
  | 0, svec => some svec
  | k + 1, svec =>
    match convergeRound N set filtered svec with
    | none => none
    | some svec2 => powerIter N set filtered k svec2

/-- Count of non-NULL slots, mirroring the `valid_peers` computation of
`converge`. -/
def validPeersCount {F : Type} [Field F] (set : List (Nat × F)) : Nat :=
  (set.filter (fun p => p.1 != nullPk)).length

/-- Mirror of `converge`: sanitize opinions, normalize them (the loop can in
principle panic on a failed map lookup), assert the 2-member quorum, run the
fixed-count power iteration from the current member scores, and finally assert
score-sum conservation; `N` is `NUM_NEIGHBOURS` and `numIter` is
`NUM_ITERATIONS`.  The display-only scaled copy and the `println!` calls have
no observable effect and are omitted. -/
def converge {F : Type} [Field F] [DecidableEq F] (N numIter : Nat)
    (s : EigenTrustSet F) : Option (List F) :=
  match normFold s.set (filter_peers_ops N s) with
  | none => none
  | some filtered =>
    if validPeersCount s.set < 2 then none
    else
      match powerIter N s.set filtered numIter (s.set.map Prod.snd) with
      | none => none
      | some sFinal =>
        if (s.set.map Prod.snd).sum = sFinal.sum then some sFinal else none

/-- States reachable from `EigenTrustSet::new` by successful `add_member`,
`remove_member` and `update_op` calls. -/
inductive Reachable {F : Type} [Field F] (N : Nat) (iscore : F) :
    EigenTrustSet F → Prop
  | new : Reachable N iscore (newSet F N)
  | add {s t : EigenTrustSet F} {pk : Nat} :
      Reachable N iscore s → add_member iscore s pk = some t → Reachable N iscore t
  | remove {s t : EigenTrustSet F} {pk : Nat} :
      Reachable N iscore s → remove_member s pk = some t → Reachable N iscore t
  | update {s t : EigenTrustSet F} {pk : Nat} {op : Opinion F} :
      Reachable N iscore s → update_op s pk op = some t → Reachable N iscore t

/-- Non-NULL identities of a slot table, in slot order. -/
def nonNullFst {F : Type} (l : List (Nat × F)) : List Nat :=
  (l.map Prod.fst).filter (fun x => x != nullPk)

/-- NULL slots carry a zero score (true in every reachable state: `new`
writes `(NULL, 0)` everywhere and `remove_member` resets to `(NULL, 0)`). -/
def nullSlotsZero {F : Type} [Field F] (set : List (Nat × F)) : Prop :=
  ∀ p ∈ set, p.1 = nullPk → p.2 = 0

/-- Structural invariant of reachable states: full-capacity slot table, NULL
slots scoreless, and pairwise-distinct non-NULL identities. -/
def wellFormed {F : Type} [Field F] (N : Nat) (s : EigenTrustSet F) : Prop :=
  s.set.length = N ∧ nullSlotsZero s.set ∧ (nonNullFst s.set).Nodup

/-- Every stored opinion has exactly `NUM_NEIGHBOURS` score entries (the
specification makes malformed submissions a caller error). -/
def opsLenOK {F : Type} [Field F] (N : Nat) (s : EigenTrustSet F) : Prop :=
  ∀ pk op, List.lookup pk s.ops = some op → op.scores.length = N

/-- A score vector is zero at every NULL slot position. -/
def nullZero {F : Type} [Field F] (set : List (Nat × F)) (v : List F) : Prop :=
  ∀ j, j < set.length → (set.getD j (nullPk, 0)).1 = nullPk → v.getD j 0 = 0

/-- An opinion row is zero at every NULL slot position. -/
def nullColZero {F : Type} [Field F] (set : List (Nat × F)) (op : Opinion F) :
    Prop :=
  ∀ j, j < set.length → (set.getD j (nullPk, 0)).1 = nullPk →
    (op.scores.getD j (nullPk, 0)).2 = 0

/-- Sum of the scores of one opinion row. -/
def rowSum {F : Type} [Field F] (op : Opinion F) : F :=
  (op.scores.map Prod.snd).sum

/-! ### Concrete fixtures over the field with 11 elements -/

instance : Fact (Nat.Prime 11) := ⟨by norm_num⟩

/-- One-member state: capacity 3, member 1 added with initial score 5. -/
def wS1 : EigenTrustSet (ZMod 11) := ⟨[(1, 5), (0, 0), (0, 0)], []⟩

/-- Two-member state: capacity 3, members 1 and 2, no opinions. -/
def wS2 : EigenTrustSet (ZMod 11) := ⟨[(1, 5), (2, 5), (0, 0)], []⟩

/-- Opinion whose every submitted identity (9) is misaligned and whose
corrected scores sum to zero. -/
def wOp9 : Opinion (ZMod 11) := ⟨(0, 0, 0), 0, [(9, 4), (9, 7), (0, 0)]⟩

/-- Two-member state in which member 1 submitted the misaligned `wOp9`. -/
def wS5 : EigenTrustSet (ZMod 11) := ⟨[(1, 5), (2, 5), (0, 0)], [(1, wOp9)]⟩

/-- Opinion misaligned at position 0 only, with a nonzero corrected sum. -/
def wOp5b : Opinion (ZMod 11) := ⟨(0, 0, 0), 0, [(9, 4), (2, 7), (0, 0)]⟩

/-- Two-member state in which member 1 submitted `wOp5b`. -/
def wS5b : EigenTrustSet (ZMod 11) := ⟨[(1, 5), (2, 5), (0, 0)], [(1, wOp5b)]⟩

/-- Aligned opinion of member 1 rating member 2. -/
def wOpA : Opinion (ZMod 11) := ⟨(0, 0, 0), 0, [(1, 0), (2, 3), (0, 0)]⟩

/-- Aligned opinion of member 2 rating member 1. -/
def wOpB : Opinion (ZMod 11) := ⟨(0, 0, 0), 0, [(1, 4), (2, 0), (0, 0)]⟩

/-- Full-capacity state: all three slots occupied. -/
def wSFull : EigenTrustSet (ZMod 11) := ⟨[(1, 5), (2, 5), (3, 5)], []⟩

/-- Two-member state with both opinions stored in one insertion order. -/
def wS9a : EigenTrustSet (ZMod 11) :=
  ⟨[(1, 5), (2, 5), (0, 0)], [(1, wOpA), (2, wOpB)]⟩

/-- The same state with the opinion map stored in the other order. -/
def wS9b : EigenTrustSet (ZMod 11) :=
  ⟨[(1, 5), (2, 5), (0, 0)], [(2, wOpB), (1, wOpA)]⟩

/-! ### Lookup lemmas for the association-list map model -/

theorem lookup_filter_ne {F : Type} (m : List (Nat × Opinion F)) (k q : Nat)
    (h : q ≠ k) :
    List.lookup q (m.filter (fun kv => kv.1 != k)) = List.lookup q m := by
  induction m with
  | nil => rfl
  | cons a t ih =>
    obtain ⟨ak, av⟩ := a
    by_cases hak : ak = k
    · subst hak
      have hq : (q == ak) = false := beq_eq_false_iff_ne.mpr h
      simp [List.filter_cons, List.lookup, hq, ih]
    · cases hqa : (q == ak) <;>
        simp [List.filter_cons, hak, List.lookup, hqa, ih]

theorem lookup_insertMap_self {F : Type} (m : List (Nat × Opinion F)) (k : Nat)
    (v : Opinion F) : List.lookup k (insertMap m k v) = some v := by
  simp [insertMap, List.lookup]

theorem lookup_insertMap_ne {F : Type} (m : List (Nat × Opinion F)) (k q : Nat)
    (v : Opinion F) (h : q ≠ k) :
    List.lookup q (insertMap m k v) = List.lookup q m := by
  have hq : (q == k) = false := beq_eq_false_iff_ne.mpr h
  simp [insertMap, List.lookup, hq, lookup_filter_ne m k q h]

/-! ### Characterization of the sanitized-opinion map -/

theorem lookup_filterFold {F : Type} [Field F] [DecidableEq F]
    (set : List (Nat × F)) (ops : List (Nat × Opinion F)) (N : Nat) :
    ∀ (l : List (Nat × F)) (acc : List (Nat × Opinion F)) (pk : Nat),
    List.lookup pk (filterFold set ops N l acc) =
      if pk ≠ nullPk ∧ pk ∈ l.map Prod.fst then
        some (filterOpinion set ops N pk)
      else List.lookup pk acc := by
  intro l
  induction l with
  | nil =>
    intro acc pk
    rw [filterFold, if_neg (by simp)]
  | cons slot rest ih =>
    intro acc pk
    rw [filterFold, ih]
    by_cases hpknull : pk = nullPk
    · rw [if_neg (show ¬(pk ≠ nullPk ∧ pk ∈ rest.map Prod.fst) from
          fun hc => hc.1 hpknull),
        if_neg (show ¬(pk ≠ nullPk ∧ pk ∈ (slot :: rest).map Prod.fst) from
          fun hc => hc.1 hpknull)]
      by_cases hnull : slot.1 = nullPk
      · rw [if_pos hnull]
      · rw [if_neg hnull,
          lookup_insertMap_ne _ _ _ _
            (by intro h; exact hnull (by rw [← h]; exact hpknull))]
    · by_cases hmem : pk ∈ rest.map Prod.fst
      · rw [if_pos (show pk ≠ nullPk ∧ pk ∈ rest.map Prod.fst from ⟨hpknull, hmem⟩),
          if_pos (show pk ≠ nullPk ∧ pk ∈ (slot :: rest).map Prod.fst from
            ⟨hpknull, by rw [List.map_cons]; exact List.mem_cons_of_mem _ hmem⟩)]
      · rw [if_neg (show ¬(pk ≠ nullPk ∧ pk ∈ rest.map Prod.fst) from
          fun hc => hmem hc.2)]
        by_cases hpkslot : pk = slot.1
        · subst hpkslot
          rw [if_neg hpknull, lookup_insertMap_self,
            if_pos (show slot.1 ≠ nullPk ∧ slot.1 ∈ (slot :: rest).map Prod.fst from
              ⟨hpknull, by rw [List.map_cons]; exact List.mem_cons_self _ _⟩)]
        · rw [if_neg (show ¬(pk ≠ nullPk ∧ pk ∈ (slot :: rest).map Prod.fst) by
            intro hc
            rw [List.map_cons] at hc
            rcases List.mem_cons.mp hc.2 with h1 | h2
            exacts [hpkslot h1, hmem h2])]
          by_cases hnull : slot.1 = nullPk
          · rw [if_pos hnull]
          · rw [if_neg hnull, lookup_insertMap_ne _ _ _ _ hpkslot]

theorem lookup_filter_peers_ops {F : Type} [Field F] [DecidableEq F]
    (N : Nat) (s : EigenTrustSet F) (pk : Nat) :
    List.lookup pk (filter_peers_ops N s) =
      if pk ≠ nullPk ∧ pk ∈ s.set.map Prod.fst then
        some (filterOpinion s.set s.ops N pk)
      else none := by
  rw [filter_peers_ops, lookup_filterFold]
  simp [List.lookup]

/-! ### Lemmas about the normalization loop -/

theorem normFold_isSome {F : Type} [Field F] [DecidableEq F] :
    ∀ (l : List (Nat × F)) (m : List (Nat × Opinion F)),
    (∀ p ∈ l, p.1 ≠ nullPk → (List.lookup p.1 m).isSome) →
    ∃ m2, normFold l m = some m2 := by
  intro l
  induction l with
  | nil => intro m _; exact ⟨m, rfl⟩
  | cons slot rest ih =>
    intro m h
    rw [normFold]
    by_cases hnull : slot.1 = nullPk
    · rw [if_pos hnull]
      exact ih m (fun p hp => h p (List.mem_cons_of_mem _ hp))
    · rw [if_neg hnull]
      have hs := h slot (List.mem_cons_self _ _) hnull
      cases hl : List.lookup slot.1 m with
      | none => rw [hl] at hs; exact absurd hs (by simp)
      | some op =>
        refine ih _ (fun p hp hpn => ?_)
        by_cases hps : p.1 = slot.1
        · rw [hps, lookup_insertMap_self]; rfl
        · rw [lookup_insertMap_ne _ _ _ _ hps]
          exact h p (List.mem_cons_of_mem _ hp) hpn

theorem lookup_normFold {F : Type} [Field F] [DecidableEq F] :
    ∀ (l : List (Nat × F)) (m m2 : List (Nat × Opinion F)) (pk : Nat),
    (nonNullFst l).Nodup → pk ≠ nullPk →
    normFold l m = some m2 →
    List.lookup pk m2 =
      if pk ∈ nonNullFst l then Option.map normalizeOpinion (List.lookup pk m)
      else List.lookup pk m := by
  intro l
  induction l with
  | nil =>
    intro m m2 pk _ _ h
    rw [normFold] at h
    cases h
    rw [if_neg (by simp [nonNullFst])]
  | cons slot rest ih =>
    intro m m2 pk hnd hpk h
    rw [normFold] at h
    by_cases hnull : slot.1 = nullPk
    · rw [if_pos hnull] at h
      have hl : nonNullFst (slot :: rest) = nonNullFst rest := by
        simp [nonNullFst, hnull]
      rw [hl]
      have hnd2 : (nonNullFst rest).Nodup := by rw [← hl]; exact hnd
      exact ih m m2 pk hnd2 hpk h
    · rw [if_neg hnull] at h
      have hl : nonNullFst (slot :: rest) = slot.1 :: nonNullFst rest := by
        simp [nonNullFst, List.filter_cons, hnull]
      rw [hl] at hnd ⊢
      have hnds := List.nodup_cons.mp hnd
      cases hlk : List.lookup slot.1 m with
      | none => rw [hlk] at h; cases h
      | some op =>
        rw [hlk] at h
        have ihres := ih _ m2 pk hnds.2 hpk h
        by_cases hps : pk = slot.1
        · subst hps
          rw [if_neg hnds.1] at ihres
          rw [ihres, lookup_insertMap_self, hlk,
            if_pos (List.mem_cons_self _ _)]
          rfl
        · rw [lookup_insertMap_ne _ _ _ _ hps] at ihres
          rw [ihres]
          by_cases hmem : pk ∈ nonNullFst rest
          · rw [if_pos hmem, if_pos (List.mem_cons_of_mem _ hmem)]
          · rw [if_neg hmem,
              if_neg (fun hc => (List.mem_cons.mp hc).elim hps hmem)]

theorem normFold_preserves {F : Type} [Field F] [DecidableEq F]
    (P : Opinion F → Prop) (hP : ∀ op, P op → P (normalizeOpinion op)) :
    ∀ (l : List (Nat × F)) (m m2 : List (Nat × Opinion F)),
    (∀ k op, List.lookup k m = some op → P op) →
    normFold l m = some m2 →
    ∀ k op, List.lookup k m2 = some op → P op := by
  intro l
  induction l with
  | nil =>
    intro m m2 hm h
    rw [normFold] at h
    cases h
    exact hm
  | cons slot rest ih =>
    intro m m2 hm h
    rw [normFold] at h
    by_cases hnull : slot.1 = nullPk
    · rw [if_pos hnull] at h
      exact ih m m2 hm h
    · rw [if_neg hnull] at h
      cases hlk : List.lookup slot.1 m with
      | none => rw [hlk] at h; cases h
      | some op0 =>
        rw [hlk] at h
        refine ih _ m2 (fun k op hk => ?_) h
        by_cases hks : k = slot.1
        · subst hks
          rw [lookup_insertMap_self] at hk
          cases hk
          exact hP _ (hm _ _ hlk)
        · rw [lookup_insertMap_ne _ _ _ _ hks] at hk
          exact hm _ _ hk

/-! ### Pointwise facts about the alignment pass -/

theorem correctEntry_fst {F : Type} [Field F] (pkI : Nat) (setJ opJ : Nat × F) :
    (correctEntry pkI setJ opJ).1 = setJ.1 := by
  unfold correctEntry
  by_cases h : setJ.1 ≠ opJ.1
  · simp [h]
  · simp only [if_neg h]
    exact (not_ne_iff.mp h).symm

theorem correctEntry_snd_zero {F : Type} [Field F] (pkI : Nat) (setJ opJ : Nat × F)
    (h : setJ.1 ≠ opJ.1 ∨ setJ.1 = nullPk ∨ setJ.1 = pkI) :
    (correctEntry pkI setJ opJ).2 = 0 := by
  unfold correctEntry
  simp only [if_pos h]

theorem correctEntry_snd_keep {F : Type} [Field F] (pkI : Nat) (setJ opJ : Nat × F)
    (h : ¬(setJ.1 ≠ opJ.1 ∨ setJ.1 = nullPk ∨ setJ.1 = pkI)) :
    (correctEntry pkI setJ opJ).2 = opJ.2 := by
  unfold correctEntry
  simp only [if_neg h]

theorem correctScores_length {F : Type} [Field F] (pkI : Nat)
    (set scores : List (Nat × F)) :
    (correctScores pkI set scores).length = min set.length scores.length := by
  simp [correctScores]

theorem correctScores_getElem {F : Type} [Field F] (pkI : Nat)
    (set scores : List (Nat × F)) (j : Nat)
    (hj : j < (correctScores pkI set scores).length)
    (hjs : j < set.length) (hjo : j < scores.length) :
    (correctScores pkI set scores)[j] = correctEntry pkI set[j] scores[j] := by
  simp [correctScores, List.getElem_zipWith]

theorem correctScores_fst {F : Type} [Field F] (pkI : Nat)
    (set scores : List (Nat × F)) (h : scores.length = set.length) :
    (correctScores pkI set scores).map Prod.fst = set.map Prod.fst := by
  apply List.ext_getElem
  · simp [correctScores, h]
  · intro n h1 h2
    have hn1 : n < (correctScores pkI set scores).length := by simpa using h1
    have hjs : n < set.length := by rw [correctScores_length] at hn1; omega
    have hjo : n < scores.length := by rw [correctScores_length] at hn1; omega
    rw [List.getElem_map, List.getElem_map,
      correctScores_getElem pkI set scores n hn1 hjs hjo, correctEntry_fst]

/-! ### Pointwise facts about the zero-sum fallback -/

theorem distributeScores_of_ne_zero {F : Type} [Field F] [DecidableEq F]
    (pkI : Nat) (scores : List (Nat × F)) (h : (scores.map Prod.snd).sum ≠ 0) :
    distributeScores pkI scores = scores := by
  rw [distributeScores, if_neg h]

theorem distributeScores_of_zero {F : Type} [Field F] [DecidableEq F]
    (pkI : Nat) (scores : List (Nat × F)) (h : (scores.map Prod.snd).sum = 0) :
    distributeScores pkI scores =
      scores.map (fun kv => if kv.1 ≠ pkI ∧ kv.1 ≠ nullPk then (kv.1, 1) else kv) := by
  rw [distributeScores, if_pos h]

theorem distributeScores_length {F : Type} [Field F] [DecidableEq F]
    (pkI : Nat) (scores : List (Nat × F)) :
    (distributeScores pkI scores).length = scores.length := by
  rw [distributeScores]
  by_cases h : (scores.map Prod.snd).sum = 0
  · rw [if_pos h, List.length_map]
  · rw [if_neg h]

theorem distributeScores_fst {F : Type} [Field F] [DecidableEq F]
    (pkI : Nat) (scores : List (Nat × F)) :
    (distributeScores pkI scores).map Prod.fst = scores.map Prod.fst := by
  rw [distributeScores]
  by_cases h : (scores.map Prod.snd).sum = 0
  · rw [if_pos h]
    apply List.ext_getElem
    · simp
    · intro n h1 h2
      have hn : n < scores.length := by simpa using h2
      simp only [List.getElem_map]
      by_cases hc : (scores[n]).1 ≠ pkI ∧ (scores[n]).1 ≠ nullPk
      · rw [if_pos hc]
      · rw [if_neg hc]
  · rw [if_neg h]

/-! ### Generic sum lemmas -/

theorem sum_map_add_distrib {α : Type} {F : Type} [Field F] (l : List α)
    (f g : α → F) :
    (l.map fun x => f x + g x).sum = (l.map f).sum + (l.map g).sum := by
  induction l with
  | nil => simp
  | cons a t ih => simp [ih]; ring

theorem sum_swap_getD {F : Type} [Field F] (rows : List (List F)) (idx : List Nat) :
    (idx.map fun i => (rows.map fun row => row.getD i 0).sum).sum =
      (rows.map fun row => (idx.map fun i => row.getD i 0).sum).sum := by
  induction rows with
  | nil => simp
  | cons r rows ih =>
    simp only [List.map_cons, List.sum_cons]
    rw [← ih, ← sum_map_add_distrib]

theorem sum_range_map_getD {α : Type} {F : Type} [Field F] (f : α → F) (d : α) :
    ∀ l : List α,
    ((List.range l.length).map fun i => f (l.getD i d)).sum = (l.map f).sum := by
  intro l
  induction l with
  | nil => simp
  | cons a t ih =>
    rw [List.length_cons, List.range_succ_eq_map, List.map_cons, List.map_map,
      List.sum_cons, List.map_cons, List.sum_cons]
    have : ((fun i => f ((a :: t).getD i d)) ∘ Nat.succ) =
        fun i => f (t.getD i d) := by
      funext i
      simp [List.getD_cons_succ]
    rw [this, ih]
    simp [List.getD_cons_zero]

/-! ### Row sums of sanitized and normalized opinions -/

theorem stored_scores_length {F : Type} [Field F] (ops : List (Nat × Opinion F))
    (N pkI : Nat)
    (hops : ∀ op, List.lookup pkI ops = some op → op.scores.length = N) :
    ((List.lookup pkI ops).getD (defaultOpinion F N)).scores.length = N := by
  cases h : List.lookup pkI ops with
  | none => simp [defaultOpinion]
  | some op => simpa using hops op h

theorem sum_overwrite {F : Type} [Field F] (pkI : Nat) (l : List (Nat × F))
    (hz : ∀ kv ∈ l, ¬(kv.1 ≠ pkI ∧ kv.1 ≠ nullPk) → kv.2 = 0) :
    ((l.map fun kv => if kv.1 ≠ pkI ∧ kv.1 ≠ nullPk then (kv.1, (1 : F)) else kv).map
        Prod.snd).sum =
      ((l.countP fun kv => decide (kv.1 ≠ pkI ∧ kv.1 ≠ nullPk) : Nat) : F) := by
  induction l with
  | nil => simp
  | cons kv t ih =>
    have iht := ih (fun x hx => hz x (List.mem_cons_of_mem _ hx))
    by_cases hc : kv.1 ≠ pkI ∧ kv.1 ≠ nullPk
    · simp only [List.map_cons, if_pos hc, List.sum_cons]
      rw [iht, List.countP_cons_of_pos _ _ (by simpa using hc)]
      push_cast
      ring
    · simp only [List.map_cons, if_neg hc, List.sum_cons]
      rw [hz kv (List.mem_cons_self _ _) hc, iht,
        List.countP_cons_of_neg _ _ (by simpa using hc)]
      ring

theorem filterOpinion_scores_length {F : Type} [Field F] [DecidableEq F]
    (set : List (Nat × F)) (ops : List (Nat × Opinion F)) (N pkI : Nat)
    (hset : set.length = N)
    (hops : ∀ op, List.lookup pkI ops = some op → op.scores.length = N) :
    (filterOpinion set ops N pkI).scores.length = N := by
  simp only [filterOpinion, distributeScores_length, correctScores_length,
    stored_scores_length ops N pkI hops, hset, min_self]

theorem filterOpinion_fst_map {F : Type} [Field F] [DecidableEq F]
    (set : List (Nat × F)) (ops : List (Nat × Opinion F)) (N pkI : Nat)
    (hset : set.length = N)
    (hops : ∀ op, List.lookup pkI ops = some op → op.scores.length = N) :
    (filterOpinion set ops N pkI).scores.map Prod.fst = set.map Prod.fst := by
  simp only [filterOpinion, distributeScores_fst]
  exact correctScores_fst pkI set _ (by rw [stored_scores_length ops N pkI hops, hset])

theorem correct_snd_zero_of_not_other {F : Type} [Field F] (set scores : List (Nat × F))
    (pkI : Nat) (kv : Nat × F) (hkv : kv ∈ correctScores pkI set scores)
    (hnc : ¬(kv.1 ≠ pkI ∧ kv.1 ≠ nullPk)) : kv.2 = 0 := by
  rcases List.mem_iff_getElem.mp hkv with ⟨j, hj, hkvj⟩
  have hjs : j < set.length := by rw [correctScores_length] at hj; omega
  have hjo : j < scores.length := by rw [correctScores_length] at hj; omega
  have he := correctScores_getElem pkI set scores j hj hjs hjo
  have hfst : kv.1 = set[j].1 := by
    rw [← hkvj, he, correctEntry_fst]
  rw [← hkvj, he]
  apply correctEntry_snd_zero
  right
  rcases not_and_or.mp hnc with h1 | h1
  · right
    rw [← hfst]
    exact not_not.mp h1
  · left
    rw [← hfst]
    exact not_not.mp h1

theorem sum_distribute_ne_zero {F : Type} [Field F] [DecidableEq F]
    (set scores : List (Nat × F)) (pkI N : Nat)
    (hset : set.length = N) (hscl : scores.length = N)
    (hchar : ∀ m : Nat, 0 < m → m ≤ N → ((m : Nat) : F) ≠ 0)
    (hex : ∃ q ∈ set, q.1 ≠ nullPk ∧ q.1 ≠ pkI) :
    ((distributeScores pkI (correctScores pkI set scores)).map Prod.snd).sum ≠ 0 := by
  have hcsl : (correctScores pkI set scores).length = N := by
    rw [correctScores_length, hset, hscl, min_self]
  by_cases hsum : ((correctScores pkI set scores).map Prod.snd).sum = 0
  · rw [distributeScores_of_zero pkI _ hsum,
      sum_overwrite pkI _ (correct_snd_zero_of_not_other set scores pkI)]
    apply hchar
    · rcases hex with ⟨q, hq, hq1, hq2⟩
      rcases List.mem_iff_getElem.mp hq with ⟨j, hjq, hqe⟩
      have hjc : j < (correctScores pkI set scores).length := by
        rw [hcsl, ← hset]
        exact hjq
      apply List.countP_pos_iff.mpr
      have hjs2 : j < set.length := hjq
      have hjo2 : j < scores.length := by
        rw [correctScores_length] at hjc; omega
      refine ⟨(correctScores pkI set scores)[j], List.getElem_mem _, ?_⟩
      have hfst : ((correctScores pkI set scores)[j]).1 = q.1 := by
        rw [correctScores_getElem pkI set scores j hjc hjs2 hjo2,
          correctEntry_fst]
        rw [hqe]
      simp [hfst, hq1, hq2]
    · calc (correctScores pkI set scores).countP _ ≤
          (correctScores pkI set scores).length := List.countP_le_length _
        _ = N := hcsl
  · rw [distributeScores_of_ne_zero pkI _ hsum]
    exact hsum

theorem rowSum_filterOpinion_ne_zero {F : Type} [Field F] [DecidableEq F]
    (set : List (Nat × F)) (ops : List (Nat × Opinion F)) (N pkI : Nat)
    (hset : set.length = N)
    (hops : ∀ op, List.lookup pkI ops = some op → op.scores.length = N)
    (hchar : ∀ m : Nat, 0 < m → m ≤ N → ((m : Nat) : F) ≠ 0)
    (hex : ∃ q ∈ set, q.1 ≠ nullPk ∧ q.1 ≠ pkI) :
    rowSum (filterOpinion set ops N pkI) ≠ 0 := by
  have h := sum_distribute_ne_zero set
    ((List.lookup pkI ops).getD (defaultOpinion F N)).scores pkI N hset
    (stored_scores_length ops N pkI hops) hchar hex
  simpa [rowSum, filterOpinion] using h

theorem rowSum_normalize {F : Type} [Field F] [DecidableEq F] (op : Opinion F)
    (h : rowSum op ≠ 0) : rowSum (normalizeOpinion op) = 1 := by
  have : rowSum (normalizeOpinion op) = rowSum op * invOrZero (rowSum op) := by
    simp only [rowSum, normalizeOpinion, List.map_map]
    have hcomp : (Prod.snd ∘ fun kv : Nat × F => (kv.1, kv.2 * invOrZero ((op.scores.map Prod.snd).sum))) =
        fun kv : Nat × F => kv.2 * invOrZero ((op.scores.map Prod.snd).sum) := rfl
    rw [hcomp, List.sum_map_mul_right]
  rw [this, invOrZero, if_neg h, mul_inv_cancel₀ h]

/-! ### Pointwise facts about normalization and the sanitized opinion -/

theorem normalizeOpinion_scores_length {F : Type} [Field F] [DecidableEq F]
    (op : Opinion F) :
    (normalizeOpinion op).scores.length = op.scores.length := by
  simp [normalizeOpinion]

theorem normalizeOpinion_snd_getD {F : Type} [Field F] [DecidableEq F]
    (op : Opinion F) (j : Nat) (hj : j < op.scores.length) :
    ((normalizeOpinion op).scores.getD j (nullPk, 0)).2 =
      (op.scores.getD j (nullPk, 0)).2 * invOrZero (rowSum op) := by
  rw [List.getD_eq_getElem _ _ (by simpa [normalizeOpinion] using hj),
    List.getD_eq_getElem _ _ hj]
  simp [normalizeOpinion, rowSum, List.getElem_map]

theorem distributeScores_getD_keep {F : Type} [Field F] [DecidableEq F]
    (pkI : Nat) (scores : List (Nat × F)) (j : Nat) (hj : j < scores.length)
    (hnc : ¬((scores.getD j (nullPk, 0)).1 ≠ pkI ∧
      (scores.getD j (nullPk, 0)).1 ≠ nullPk)) :
    (distributeScores pkI scores).getD j (nullPk, 0) =
      scores.getD j (nullPk, 0) := by
  rw [distributeScores]
  by_cases h : (scores.map Prod.snd).sum = 0
  · rw [if_pos h, List.getD_eq_getElem _ _ (by simpa using hj),
      List.getElem_map, List.getD_eq_getElem _ _ hj] at *
    rw [if_neg hnc]
  · rw [if_neg h]

theorem filterOpinion_fst_getD {F : Type} [Field F] [DecidableEq F]
    (set : List (Nat × F)) (ops : List (Nat × Opinion F)) (N pkI : Nat)
    (hset : set.length = N)
    (hops : ∀ op, List.lookup pkI ops = some op → op.scores.length = N)
    (j : Nat) (hj : j < N) :
    ((filterOpinion set ops N pkI).scores.getD j (nullPk, 0)).1 =
      (set.getD j (nullPk, 0)).1 := by
  have hl := filterOpinion_scores_length set ops N pkI hset hops
  have hmap := filterOpinion_fst_map set ops N pkI hset hops
  rw [List.getD_eq_getElem _ _ (by omega), List.getD_eq_getElem _ _ (by omega)]
  have hjm1 : j < ((filterOpinion set ops N pkI).scores.map Prod.fst).length := by
    rw [List.length_map]; omega
  have hjm2 : j < (set.map Prod.fst).length := by
    rw [List.length_map]; omega
  have h1 : ((filterOpinion set ops N pkI).scores.map Prod.fst)[j] =
      (set.map Prod.fst)[j] := by
    congr 1
  rw [List.getElem_map, List.getElem_map] at h1
  exact h1

theorem filterOpinion_snd_zero {F : Type} [Field F] [DecidableEq F]
    (set : List (Nat × F)) (ops : List (Nat × Opinion F)) (N pkI : Nat)
    (hset : set.length = N)
    (hops : ∀ op, List.lookup pkI ops = some op → op.scores.length = N)
    (j : Nat) (hj : j < N)
    (hcase : (set.getD j (nullPk, 0)).1 = nullPk ∨
      (set.getD j (nullPk, 0)).1 = pkI) :
    ((filterOpinion set ops N pkI).scores.getD j (nullPk, 0)).2 = 0 := by
  have hsl := stored_scores_length ops N pkI hops
  have hcsl : (correctScores pkI set
      ((List.lookup pkI ops).getD (defaultOpinion F N)).scores).length = N := by
    rw [correctScores_length, hset, hsl, min_self]
  have hjc : j < (correctScores pkI set
      ((List.lookup pkI ops).getD (defaultOpinion F N)).scores).length := by omega
  have hjs : j < set.length := by omega
  have hjo : j < ((List.lookup pkI ops).getD (defaultOpinion F N)).scores.length := by
    rw [hsl]; exact hj
  have hgetc := correctScores_getElem pkI set
    ((List.lookup pkI ops).getD (defaultOpinion F N)).scores j hjc hjs hjo
  have hsetj : (set.getD j (nullPk, 0)) = set[j] :=
    List.getD_eq_getElem _ _ hjs
  have hfst : ((correctScores pkI set
      ((List.lookup pkI ops).getD (defaultOpinion F N)).scores).getD j
        (nullPk, 0)).1 = (set.getD j (nullPk, 0)).1 := by
    rw [List.getD_eq_getElem _ _ hjc, hgetc, correctEntry_fst, hsetj]
  have hsnd : ((correctScores pkI set
      ((List.lookup pkI ops).getD (defaultOpinion F N)).scores).getD j
        (nullPk, 0)).2 = 0 := by
    rw [List.getD_eq_getElem _ _ hjc, hgetc]
    apply correctEntry_snd_zero
    right
    rw [← hsetj]
    exact hcase
  have hkeep := distributeScores_getD_keep pkI
    (correctScores pkI set ((List.lookup pkI ops).getD (defaultOpinion F N)).scores)
    j hjc (by
      rw [hfst]
      rcases hcase with h | h
      · intro hc; exact hc.2 h
      · intro hc; exact hc.1 h)
  show ((distributeScores pkI (correctScores pkI set
      ((List.lookup pkI ops).getD (defaultOpinion F N)).scores)).getD j
        (nullPk, 0)).2 = 0
  rw [hkeep, hsnd]

/-! ### The option-valued map -/

theorem mapOpt_congr_some {α β : Type} (f : α → Option β) (g : α → β) :
    ∀ l : List α, (∀ a ∈ l, f a = some (g a)) → mapOpt f l = some (l.map g) := by
  intro l
  induction l with
  | nil => intro _; rfl
  | cons a t ih =>
    intro h
    rw [mapOpt, h a (List.mem_cons_self _ _),
      ih (fun x hx => h x (List.mem_cons_of_mem _ hx)), List.map_cons]

theorem mapOpt_mem {α β : Type} (f : α → Option β) :
    ∀ (l : List α) (bs : List β), mapOpt f l = some bs →
    ∀ b ∈ bs, ∃ a ∈ l, f a = some b := by
  intro l
  induction l with
  | nil =>
    intro bs h b hb
    rw [mapOpt] at h
    cases h
    cases hb
  | cons a t ih =>
    intro bs h b hb
    rw [mapOpt] at h
    cases hfa : f a with
    | none => rw [hfa] at h; cases h
    | some b0 =>
      rw [hfa] at h
      cases hmt : mapOpt f t with
      | none => rw [hmt] at h; cases h
      | some ts =>
        rw [hmt] at h
        cases h
        rcases List.mem_cons.mp hb with hb1 | hb2
        · exact ⟨a, List.mem_cons_self _ _, hb1 ▸ hfa⟩
        · rcases ih ts hmt b hb2 with ⟨x, hx, hfx⟩
          exact ⟨x, List.mem_cons_of_mem _ hx, hfx⟩

theorem contribRow_eq {F : Type} [Field F] (N : Nat) (op : Opinion F) (si : F)
    (hlen : op.scores.length = N) :
    contribRow N op si =
      some ((List.range N).map fun j => (op.scores.getD j (nullPk, 0)).2 * si) := by
  apply mapOpt_congr_some
  intro j hj
  have hjN : j < op.scores.length := by rw [hlen]; exact List.mem_range.mp hj
  rw [List.getElem?_eq_getElem hjN, List.getD_eq_getElem _ _ hjN]
  rfl

/-! ### One round of power iteration preserves the score sum -/

theorem nextScores_length {F : Type} [Field F] (N : Nat) (sop : List (List F)) :
    (nextScores N sop).length = N := by
  simp [nextScores]

theorem nextScores_getD {F : Type} [Field F] (N : Nat) (sop : List (List F))
    (j : Nat) (hj : j < N) :
    (nextScores N sop).getD j 0 = (sop.map fun row => row.getD j 0).sum := by
  rw [List.getD_eq_getElem _ _ (by rw [nextScores_length]; exact hj)]
  simp [nextScores]

theorem convergeRound_spec {F : Type} [Field F] [DecidableEq F]
    (N : Nat) (set : List (Nat × F)) (filtered : List (Nat × Opinion F))
    (svec : List F) (hset : set.length = N) (hsv : svec.length = N)
    (hrows : ∀ p ∈ set, p.1 ≠ nullPk → ∃ op,
      List.lookup p.1 filtered = some op ∧ op.scores.length = N ∧
      rowSum op = 1 ∧ nullColZero set op)
    (hz : nullZero set svec) :
    ∃ v, convergeRound N set filtered svec = some v ∧ v.length = N ∧
      v.sum = svec.sum ∧ nullZero set v := by
  classical
  set g : (Nat × F) × F → List F := fun p =>
    if p.1.1 = nullPk then List.replicate N (0 : F)
    else
      match List.lookup p.1.1 filtered with
      | none => []
      | some op => (List.range N).map fun j => (op.scores.getD j (nullPk, 0)).2 * p.2
    with hg
  have hzip : ∀ p ∈ List.zip set svec, p.1 ∈ set :=
    fun p hp => (List.of_mem_zip hp).1
  have hgnull : ∀ p : (Nat × F) × F, p.1.1 = nullPk →
      g p = List.replicate N (0 : F) := by
    intro p hn
    simp only [hg]
    simp [hn]
  have hgop : ∀ (p : (Nat × F) × F) (op : Opinion F), p.1.1 ≠ nullPk →
      List.lookup p.1.1 filtered = some op →
      g p = (List.range N).map fun j => (op.scores.getD j (nullPk, 0)).2 * p.2 := by
    intro p op hn hop
    simp only [hg]
    simp [hn, hop]
  have hf : ∀ p ∈ List.zip set svec,
      (if p.1.1 = nullPk then some (List.replicate N (0 : F))
       else
         match List.lookup p.1.1 filtered with
         | none => none
         | some op => contribRow N op p.2) = some (g p) := by
    intro p hp
    by_cases hn : p.1.1 = nullPk
    · rw [hgnull p hn]
      simp only [if_pos hn]
    · rcases hrows p.1 (hzip p hp) hn with ⟨op, hop, hlen, _, _⟩
      rw [hgop p op hn hop]
      simp only [if_neg hn, hop]
      exact contribRow_eq N op p.2 hlen
  have hm : mapOpt
      (fun p : (Nat × F) × F =>
        if p.1.1 = nullPk then some (List.replicate N (0 : F))
        else
          match List.lookup p.1.1 filtered with
          | none => none
          | some op => contribRow N op p.2)
      (List.zip set svec) = some ((List.zip set svec).map g) :=
    mapOpt_congr_some _ g _ hf
  have hrowlen : ∀ row ∈ (List.zip set svec).map g, row.length = N := by
    intro row hrow
    rcases List.mem_map.mp hrow with ⟨p, hp, hgp⟩
    by_cases hn : p.1.1 = nullPk
    · rw [← hgp, hgnull p hn, List.length_replicate]
    · rcases hrows p.1 (hzip p hp) hn with ⟨op, hop, hlen, _, _⟩
      rw [← hgp, hgop p op hn hop, List.length_map, List.length_range]
  refine ⟨nextScores N ((List.zip set svec).map g), ?_, ?_, ?_, ?_⟩
  · rw [convergeRound, hm]
  · exact nextScores_length N _
  · rw [nextScores, sum_swap_getD]
    have h1 : ((List.zip set svec).map g).map
        (fun row => ((List.range N).map fun i => row.getD i 0).sum) =
        ((List.zip set svec).map g).map List.sum := by
      apply List.map_congr_left
      intro row hrow
      rw [← hrowlen row hrow]
      have := sum_range_map_getD (fun x : F => x) (0 : F) row
      simpa using this
    rw [h1, List.map_map]
    have h2 : (List.zip set svec).map (List.sum ∘ g) = svec := by
      apply List.ext_getElem
      · rw [List.length_map, List.length_zip, hset, hsv, min_self]
      · intro i h1i h2i
        have hiz : i < (List.zip set svec).length := by
          rw [List.length_zip, hset, hsv, min_self]
          rw [hsv] at h2i
          exact h2i
        have his : i < set.length := by rw [hset]; rw [hsv] at h2i; exact h2i
        rw [List.getElem_map, Function.comp_apply, List.getElem_zip]
        by_cases hn : (set[i]).1 = nullPk
        · rw [hgnull _ hn, List.sum_replicate, smul_zero]
          have := hz i his (by rw [List.getD_eq_getElem _ _ his]; exact hn)
          rw [List.getD_eq_getElem _ _ h2i] at this
          exact this.symm
        · rcases hrows (set[i]) (List.getElem_mem _) hn with
            ⟨op, hop, hlen, hsum1, _⟩
          rw [hgop _ op hn hop]
          show ((List.range N).map
            fun j => (op.scores.getD j (nullPk, 0)).2 * svec[i]).sum = _
          rw [← hlen]
          rw [sum_range_map_getD
            (fun kv : Nat × F => kv.2 * svec[i]) ((nullPk, 0) : Nat × F)
            op.scores]
          rw [List.sum_map_mul_right op.scores
            (fun kv : Nat × F => kv.2) (svec[i])]
          have hrs : (List.map (fun kv : Nat × F => kv.2) op.scores).sum = 1 := hsum1
          rw [hrs, one_mul]
    rw [h2]
  · intro j hjs hjn
    have hjN : j < N := by rw [← hset]; exact hjs
    rw [nextScores_getD N _ j hjN]
    apply List.sum_eq_zero
    intro x hx
    rcases List.mem_map.mp hx with ⟨row, hrow, hrx⟩
    rcases List.mem_map.mp hrow with ⟨p, hp, hgp⟩
    by_cases hn : p.1.1 = nullPk
    · rw [← hrx, ← hgp, hgnull p hn,
        List.getD_eq_getElem _ _ (by simpa using hjN), List.getElem_replicate]
    · rcases hrows p.1 (hzip p hp) hn with ⟨op, hop, hlen, _, hncz⟩
      rw [← hrx, ← hgp, hgop p op hn hop,
        List.getD_eq_getElem _ _ (by simpa using hjN), List.getElem_map,
        List.getElem_range]
      have := hncz j hjs hjn
      rw [List.getD_eq_getElem _ _ (by rw [hlen]; exact hjN)] at this ⊢
      rw [this, zero_mul]

/-! ### Full power iteration and the conservation master lemma -/

theorem powerIter_spec {F : Type} [Field F] [DecidableEq F]
    (N : Nat) (set : List (Nat × F)) (filtered : List (Nat × Opinion F))
    (hset : set.length = N)
    (hrows : ∀ p ∈ set, p.1 ≠ nullPk → ∃ op,
      List.lookup p.1 filtered = some op ∧ op.scores.length = N ∧
      rowSum op = 1 ∧ nullColZero set op) :
    ∀ (k : Nat) (svec : List F), svec.length = N → nullZero set svec →
    ∃ v, powerIter N set filtered k svec = some v ∧ v.length = N ∧
      v.sum = svec.sum ∧ nullZero set v := by
  intro k
  induction k with
  | zero => intro svec h1 h2; exact ⟨svec, rfl, h1, rfl, h2⟩
  | succ k ih =>
    intro svec h1 h2
    rcases convergeRound_spec N set filtered svec hset h1 hrows h2 with
      ⟨v1, hv1, hl1, hs1, hz1⟩
    rcases ih v1 hl1 hz1 with ⟨v, hv, hl, hs, hz3⟩
    refine ⟨v, ?_, hl, by rw [hs, hs1], hz3⟩
    rw [powerIter, hv1]
    exact hv

theorem validPeersCount_eq_length_nonNullFst {F : Type} [Field F]
    (set : List (Nat × F)) : validPeersCount set = (nonNullFst set).length := by
  rw [validPeersCount, nonNullFst, List.filter_map]
  show _ = (List.map Prod.fst (set.filter ((fun x => x != nullPk) ∘ Prod.fst))).length
  rw [List.length_map]
  rfl

theorem exists_other_nonnull {F : Type} [Field F] (set : List (Nat × F))
    (pkI : Nat) (hq : 2 ≤ validPeersCount set)
    (hnd : (nonNullFst set).Nodup) :
    ∃ q ∈ set, q.1 ≠ nullPk ∧ q.1 ≠ pkI := by
  rw [validPeersCount_eq_length_nonNullFst] at hq
  have hex : ∃ x ∈ nonNullFst set, x ≠ pkI := by
    match hl : nonNullFst set with
    | [] => rw [hl] at hq; simp at hq
    | [a] => rw [hl] at hq; simp at hq
    | a :: b :: t =>
      rw [hl] at hnd
      have hab : a ≠ b := by
        rcases List.nodup_cons.mp hnd with ⟨hna, _⟩
        intro hc
        exact hna (hc ▸ List.mem_cons_self _ _)
      by_cases ha : a = pkI
      · exact ⟨b, List.mem_cons_of_mem _ (List.mem_cons_self _ _),
          fun hb => hab (by rw [ha, hb])⟩
      · exact ⟨a, List.mem_cons_self _ _, ha⟩
  rcases hex with ⟨x, hx, hxpk⟩
  rw [nonNullFst, List.mem_filter] at hx
  rcases List.mem_map.mp hx.1 with ⟨q, hq2, hqx⟩
  refine ⟨q, hq2, ?_, ?_⟩
  · rw [hqx]
    simpa using hx.2
  · rw [hqx]
    exact hxpk

theorem getD_map_snd {F : Type} [Field F] (l : List (Nat × F)) (j : Nat)
    (hj : j < l.length) :
    (l.map Prod.snd).getD j 0 = (l.getD j (nullPk, 0)).2 := by
  rw [List.getD_eq_getElem _ _ (by simpa using hj),
    List.getD_eq_getElem _ _ hj, List.getElem_map]

theorem nullZero_init {F : Type} [Field F] (set : List (Nat × F))
    (hnull0 : nullSlotsZero set) : nullZero set (set.map Prod.snd) := by
  intro j hj hjn
  rw [getD_map_snd set j hj]
  apply hnull0 _ (by rw [List.getD_eq_getElem _ _ hj]; exact List.getElem_mem _)
  exact hjn

theorem converge_conserves {F : Type} [Field F] [DecidableEq F]
    (N numIter : Nat) (s : EigenTrustSet F)
    (hwf : wellFormed N s) (hops : opsLenOK N s)
    (hchar : ∀ m : Nat, 0 < m → m ≤ N → ((m : Nat) : F) ≠ 0)
    (hq : 2 ≤ validPeersCount s.set) :
    ∃ v, converge N numIter s = some v ∧ v.length = N ∧
      v.sum = (s.set.map Prod.snd).sum ∧ nullZero s.set v := by
  rcases hwf with ⟨hlen, hnull0, hnodup⟩
  have hin : ∀ p ∈ s.set, p.1 ≠ nullPk →
      (List.lookup p.1 (filter_peers_ops N s)).isSome := by
    intro p hp hpn
    rw [lookup_filter_peers_ops, if_pos ⟨hpn, List.mem_map_of_mem Prod.fst hp⟩]
    rfl
  rcases normFold_isSome s.set (filter_peers_ops N s) hin with ⟨m2, hm2⟩
  have hval : ∀ p ∈ s.set, p.1 ≠ nullPk →
      List.lookup p.1 m2 =
        some (normalizeOpinion (filterOpinion s.set s.ops N p.1)) := by
    intro p hp hpn
    rw [lookup_normFold s.set (filter_peers_ops N s) m2 p.1 hnodup hpn hm2,
      if_pos (by
        rw [nonNullFst, List.mem_filter]
        exact ⟨List.mem_map_of_mem Prod.fst hp, by simpa using hpn⟩),
      lookup_filter_peers_ops,
      if_pos ⟨hpn, List.mem_map_of_mem Prod.fst hp⟩]
    rfl
  have hrows : ∀ p ∈ s.set, p.1 ≠ nullPk → ∃ op,
      List.lookup p.1 m2 = some op ∧ op.scores.length = N ∧
      rowSum op = 1 ∧ nullColZero s.set op := by
    intro p hp hpn
    refine ⟨normalizeOpinion (filterOpinion s.set s.ops N p.1), hval p hp hpn,
      ?_, ?_, ?_⟩
    · rw [normalizeOpinion_scores_length,
        filterOpinion_scores_length s.set s.ops N p.1 hlen (hops p.1)]
    · exact rowSum_normalize _ (rowSum_filterOpinion_ne_zero s.set s.ops N p.1
        hlen (hops p.1) hchar (exists_other_nonnull s.set p.1 hq hnodup))
    · intro j hjs hjn
      have hjN : j < N := by rw [← hlen]; exact hjs
      have hfl := filterOpinion_scores_length s.set s.ops N p.1 hlen (hops p.1)
      rw [normalizeOpinion_snd_getD _ j (by rw [hfl]; exact hjN),
        filterOpinion_snd_zero s.set s.ops N p.1 hlen (hops p.1) j hjN
          (Or.inl hjn), zero_mul]
  rcases powerIter_spec N s.set m2 hlen hrows numIter (s.set.map Prod.snd)
    (by rw [List.length_map]; exact hlen) (nullZero_init s.set hnull0) with
    ⟨v, hv, hvl, hvs, hvz⟩
  refine ⟨v, ?_, hvl, hvs, hvz⟩
  rw [converge, hm2]
  show (if validPeersCount s.set < 2 then none
    else
      match powerIter N s.set m2 numIter (s.set.map Prod.snd) with
      | none => none
      | some sFinal =>
        if (s.set.map Prod.snd).sum = sFinal.sum then some sFinal else none) =
    some v
  rw [if_neg (not_lt.mpr hq), hv]
  show (if (s.set.map Prod.snd).sum = v.sum then some v else none) = some v
  rw [if_pos hvs.symm]

/-! ### Failure below quorum, and NULL-slot exclusion for arbitrary states -/

theorem converge_fails_lt_two {F : Type} [Field F] [DecidableEq F]
    (N numIter : Nat) (s : EigenTrustSet F)
    (hq : validPeersCount s.set < 2) : converge N numIter s = none := by
  have hin : ∀ p ∈ s.set, p.1 ≠ nullPk →
      (List.lookup p.1 (filter_peers_ops N s)).isSome := by
    intro p hp hpn
    rw [lookup_filter_peers_ops, if_pos ⟨hpn, List.mem_map_of_mem Prod.fst hp⟩]
    rfl
  rcases normFold_isSome s.set (filter_peers_ops N s) hin with ⟨m2, hm2⟩
  rw [converge, hm2]
  show (if validPeersCount s.set < 2 then none
    else
      match powerIter N s.set m2 numIter (s.set.map Prod.snd) with
      | none => none
      | some sFinal =>
        if (s.set.map Prod.snd).sum = sFinal.sum then some sFinal else none) =
    none
  rw [if_pos hq]

theorem convergeRound_nullZero {F : Type} [Field F] [DecidableEq F]
    (N : Nat) (set : List (Nat × F)) (filtered : List (Nat × Opinion F))
    (svec v2 : List F) (hset : set.length = N)
    (hrowsP : ∀ k op, List.lookup k filtered = some op →
      op.scores.length = N ∧ nullColZero set op)
    (h : convergeRound N set filtered svec = some v2) :
    v2.length = N ∧ nullZero set v2 := by
  rw [convergeRound] at h
  cases hm : mapOpt
      (fun p : (Nat × F) × F =>
        if p.1.1 = nullPk then some (List.replicate N (0 : F))
        else
          match List.lookup p.1.1 filtered with
          | none => none
          | some op => contribRow N op p.2)
      (List.zip set svec) with
  | none => rw [hm] at h; cases h
  | some sop =>
    rw [hm] at h
    cases h
    refine ⟨nextScores_length N sop, ?_⟩
    intro j hjs hjn
    have hjN : j < N := hset ▸ hjs
    rw [nextScores_getD N sop j hjN]
    apply List.sum_eq_zero
    intro x hx
    rcases List.mem_map.mp hx with ⟨row, hrow, hrx⟩
    rcases mapOpt_mem _ (List.zip set svec) sop hm row hrow with ⟨p, hp, hfp⟩
    by_cases hn : p.1.1 = nullPk
    · rw [if_pos hn] at hfp
      cases hfp
      rw [← hrx, List.getD_eq_getElem _ _ (by simpa using hjN),
        List.getElem_replicate]
    · rw [if_neg hn] at hfp
      cases hl : List.lookup p.1.1 filtered with
      | none => rw [hl] at hfp; cases hfp
      | some op =>
        rw [hl] at hfp
        obtain ⟨hlen, hncz⟩ := hrowsP _ _ hl
        change contribRow N op p.2 = some row at hfp
        rw [contribRow_eq N op p.2 hlen] at hfp
        cases hfp
        rw [← hrx, List.getD_eq_getElem _ _ (by simpa using hjN),
          List.getElem_map, List.getElem_range]
        have hz := hncz j hjs hjn
        rw [List.getD_eq_getElem _ _ (by rw [hlen]; exact hjN)] at hz
        rw [List.getD_eq_getElem _ _ (by rw [hlen]; exact hjN), hz, zero_mul]

theorem powerIter_nullZero {F : Type} [Field F] [DecidableEq F]
    (N : Nat) (set : List (Nat × F)) (filtered : List (Nat × Opinion F))
    (hset : set.length = N)
    (hrowsP : ∀ k op, List.lookup k filtered = some op →
      op.scores.length = N ∧ nullColZero set op) :
    ∀ (k : Nat) (svec v : List F), powerIter N set filtered k svec = some v →
    svec.length = N → nullZero set svec → v.length = N ∧ nullZero set v := by
  intro k
  induction k with
  | zero =>
    intro svec v h h1 h2
    rw [powerIter] at h
    cases h
    exact ⟨h1, h2⟩
  | succ k ih =>
    intro svec v h h1 h2
    rw [powerIter] at h
    cases hr : convergeRound N set filtered svec with
    | none => rw [hr] at h; cases h
    | some v1 =>
      rw [hr] at h
      obtain ⟨hl1, hz1⟩ :=
        convergeRound_nullZero N set filtered svec v1 hset hrowsP hr
      exact ih v1 v h hl1 hz1

theorem converge_nullZero {F : Type} [Field F] [DecidableEq F]
    (N numIter : Nat) (s : EigenTrustSet F) (v : List F)
    (hlen : s.set.length = N) (hnull0 : nullSlotsZero s.set)
    (hops : opsLenOK N s) (hconv : converge N numIter s = some v) :
    v.length = N ∧ nullZero s.set v := by
  have hrowsP : ∀ k op, List.lookup k (filter_peers_ops N s) = some op →
      op.scores.length = N ∧ nullColZero s.set op := by
    intro k op h
    rw [lookup_filter_peers_ops] at h
    by_cases hc : k ≠ nullPk ∧ k ∈ s.set.map Prod.fst
    · rw [if_pos hc] at h
      cases h
      refine ⟨filterOpinion_scores_length s.set s.ops N k hlen (hops k), ?_⟩
      intro j hjs hjn
      exact filterOpinion_snd_zero s.set s.ops N k hlen (hops k) j
        (hlen ▸ hjs) (Or.inl hjn)
    · rw [if_neg hc] at h
      cases h
  rw [converge] at hconv
  cases hnf : normFold s.set (filter_peers_ops N s) with
  | none => rw [hnf] at hconv; cases hconv
  | some m2 =>
    rw [hnf] at hconv
    change (if validPeersCount s.set < 2 then none
      else
        match powerIter N s.set m2 numIter (s.set.map Prod.snd) with
        | none => none
        | some sFinal =>
          if (s.set.map Prod.snd).sum = sFinal.sum then some sFinal
          else none) = some v at hconv
    have hP : ∀ op : Opinion F,
        (op.scores.length = N ∧ nullColZero s.set op) →
        ((normalizeOpinion op).scores.length = N ∧
          nullColZero s.set (normalizeOpinion op)) := by
      rintro op ⟨h1, h2⟩
      refine ⟨by rw [normalizeOpinion_scores_length]; exact h1, ?_⟩
      intro j hjs hjn
      rw [normalizeOpinion_snd_getD op j (by rw [h1, ← hlen]; exact hjs),
        h2 j hjs hjn, zero_mul]
    have hrowsP2 := normFold_preserves
      (fun op => op.scores.length = N ∧ nullColZero s.set op) hP s.set
      (filter_peers_ops N s) m2 hrowsP hnf
    by_cases hq : validPeersCount s.set < 2
    · rw [if_pos hq] at hconv
      cases hconv
    · rw [if_neg hq] at hconv
      cases hp : powerIter N s.set m2 numIter (s.set.map Prod.snd) with
      | none => rw [hp] at hconv; cases hconv
      | some v0 =>
        rw [hp] at hconv
        change (if (s.set.map Prod.snd).sum = v0.sum then some v0 else none) =
          some v at hconv
        by_cases hs : (s.set.map Prod.snd).sum = v0.sum
        · rw [if_pos hs] at hconv
          cases hconv
          exact powerIter_nullZero N s.set m2 hlen hrowsP2 numIter
            (s.set.map Prod.snd) v hp (by rw [List.length_map]; exact hlen)
            (nullZero_init s.set hnull0)
        · rw [if_neg hs] at hconv
          cases hconv

/-! ### Characterization of findIdx? -/

theorem findIdx?_some_spec {α : Type} (p : α → Bool) :
    ∀ (l : List α) (k : Nat), l.findIdx? p = some k →
    ∃ h : k < l.length, p (l[k]) = true ∧
      ∀ q (hq : q < l.length), q < k → p (l[q]) = false := by
  intro l
  induction l with
  | nil => intro k h; rw [List.findIdx?_nil] at h; cases h
  | cons a t ih =>
    intro k h
    rw [List.findIdx?_cons] at h
    by_cases hpa : p a = true
    · rw [if_pos hpa] at h
      cases h
      exact ⟨by simp, hpa, fun q hq hlt => absurd hlt (by omega)⟩
    · rw [if_neg hpa, List.findIdx?_succ] at h
      cases hft : t.findIdx? p with
      | none => rw [hft] at h; cases h
      | some k0 =>
        rw [hft] at h
        simp only [Option.map_some'] at h
        cases h
        rcases ih k0 hft with ⟨hk0, hp0, hprev⟩
        refine ⟨by simpa using Nat.succ_lt_succ hk0, by simpa using hp0, ?_⟩
        intro q hq hlt
        cases q with
        | zero => simpa using hpa
        | succ q0 =>
          have hlt0 : q0 < k0 := by omega
          simpa using hprev q0 (by simpa using hq) hlt0

theorem findIdx?_some_of {α : Type} (p : α → Bool) :
    ∀ (l : List α) (k : Nat) (h : k < l.length), p (l[k]) = true →
    (∀ q (hq : q < l.length), q < k → p (l[q]) = false) →
    l.findIdx? p = some k := by
  intro l
  induction l with
  | nil => intro k h; simp at h
  | cons a t ih =>
    intro k h hpk hprev
    rw [List.findIdx?_cons]
    cases k with
    | zero => rw [if_pos (by simpa using hpk)]
    | succ k0 =>
      have hpa : p a = false := hprev 0 (by simp) (by omega)
      have hlen0 : k0 < t.length := by simp only [List.length_cons] at h; omega
      have hpk0 : p (t[k0]) = true := by simpa using hpk
      have hprev0 : ∀ q (hq : q < t.length), q < k0 → p (t[q]) = false := by
        intro q hq hlt
        have hx := hprev (q + 1) (by simp only [List.length_cons]; omega)
          (by omega)
        simpa using hx
      rw [if_neg (by simp [hpa]), List.findIdx?_succ, ih k0 hlen0 hpk0 hprev0]
      rfl

/-! ### The well-formedness invariant is preserved by the mutators -/

theorem filter_set_split (q : Nat → Bool) :
    ∀ (A : List Nat) (k : Nat), k < A.length → ∀ v : Nat,
    ∃ X Y, A.filter q = X ++ (if q (A.getD k 0) then [A.getD k 0] else []) ++ Y ∧
      (A.set k v).filter q = X ++ (if q v then [v] else []) ++ Y ∧
      (∀ x ∈ X, x ∈ A) ∧ (∀ y ∈ Y, y ∈ A) := by
  intro A
  induction A with
  | nil => intro k hk; simp at hk
  | cons a t ih =>
    intro k hk v
    cases k with
    | zero =>
      refine ⟨[], t.filter q, ?_, ?_, by simp,
        fun y hy => List.mem_cons_of_mem _ (List.mem_of_mem_filter hy)⟩
      · rw [List.getD_cons_zero, List.filter_cons]
        by_cases hqa : q a <;> simp [hqa]
      · rw [List.set_cons_zero, List.filter_cons]
        by_cases hqv : q v <;> simp [hqv]
    | succ k0 =>
      have hk0 : k0 < t.length := by simpa using hk
      rcases ih k0 hk0 v with ⟨X, Y, h1, h2, hX, hY⟩
      refine ⟨(if q a then [a] else []) ++ X, Y, ?_, ?_, ?_,
        fun y hy => List.mem_cons_of_mem _ (hY y hy)⟩
      · rw [List.getD_cons_succ, List.filter_cons]
        by_cases hqa : q a <;> simp [hqa, h1]
      · rw [List.set_cons_succ, List.filter_cons]
        by_cases hqa : q a <;> simp [hqa, h2]
      · intro x hx
        rcases List.mem_append.mp hx with h | h
        · by_cases hqa : q a
          · rw [if_pos hqa] at h
            rcases List.mem_singleton.mp h with rfl
            exact List.mem_cons_self _ _
          · rw [if_neg hqa] at h
            cases h
        · exact List.mem_cons_of_mem _ (hX x h)

theorem map_fst_set {F : Type} [Field F] (set : List (Nat × F)) (k : Nat)
    (pk : Nat) (sc : F) :
    (set.set k (pk, sc)).map Prod.fst = (set.map Prod.fst).set k pk :=
  List.map_set

theorem getD_map_fst {F : Type} [Field F] (set : List (Nat × F)) (k : Nat)
    (hk : k < set.length) :
    (set.map Prod.fst).getD k 0 = (set[k]).1 := by
  rw [List.getD_eq_getElem _ _ (by simpa using hk), List.getElem_map]

theorem nonNullFst_set_nodup_add {F : Type} [Field F] (set : List (Nat × F))
    (k : Nat) (hk : k < set.length) (pk : Nat) (sc : F)
    (hold : (set[k]).1 = nullPk) (hpk : pk ∉ set.map Prod.fst)
    (hnd : (nonNullFst set).Nodup) :
    (nonNullFst (set.set k (pk, sc))).Nodup := by
  have hkA : k < (set.map Prod.fst).length := by simpa using hk
  rcases filter_set_split (fun x => x != nullPk) (set.map Prod.fst) k hkA pk with
    ⟨X, Y, h1, h2, hX, hY⟩
  have holdD : (set.map Prod.fst).getD k 0 = nullPk := by
    rw [getD_map_fst set k hk, hold]
  rw [holdD] at h1
  simp only [bne_self_eq_false, if_neg] at h1
  have hpknull : pk ≠ nullPk := by
    intro hc
    apply hpk
    rw [hc, ← hold]
    exact List.mem_map_of_mem Prod.fst (List.getElem_mem hk)
  have hqpk : (pk != nullPk) = true := by simpa using hpknull
  rw [hqpk] at h2
  have hnew : nonNullFst (set.set k (pk, sc)) = X ++ pk :: Y := by
    rw [nonNullFst, map_fst_set]
    simp only [if_pos] at h2
    rw [h2]
    simp
  rw [hnew]
  rw [List.nodup_middle]
  apply List.nodup_cons.mpr
  constructor
  · intro hc
    rcases List.mem_append.mp hc with hcx | hcy
    · exact hpk (hX pk hcx)
    · exact hpk (hY pk hcy)
  · have h1s : nonNullFst set = X ++ Y := by
      rw [nonNullFst, h1]
      simp
    rw [h1s] at hnd
    exact hnd

theorem nonNullFst_set_nodup_remove {F : Type} [Field F] (set : List (Nat × F))
    (k : Nat) (hk : k < set.length) (sc : F)
    (hnd : (nonNullFst set).Nodup) :
    (nonNullFst (set.set k (nullPk, sc))).Nodup := by
  have hkA : k < (set.map Prod.fst).length := by simpa using hk
  rcases filter_set_split (fun x => x != nullPk) (set.map Prod.fst) k hkA nullPk
    with ⟨X, Y, h1, h2, hX, hY⟩
  simp only [bne_self_eq_false, if_neg] at h2
  have hnew : nonNullFst (set.set k (nullPk, sc)) = X ++ Y := by
    rw [nonNullFst, map_fst_set, h2]
    simp
  rw [hnew]
  by_cases hq : ((set.map Prod.fst).getD k 0 != nullPk) = true
  · rw [if_pos hq] at h1
    have h1s : nonNullFst set =
        X ++ (set.map Prod.fst).getD k 0 :: Y := by
      rw [nonNullFst, h1]
      simp
    rw [h1s] at hnd
    have hsub : (X ++ Y).Sublist
        (X ++ (set.map Prod.fst).getD k 0 :: Y) :=
      List.Sublist.append_left (List.sublist_cons_self _ _) X
    exact hsub.nodup hnd
  · rw [if_neg hq] at h1
    have h1s : nonNullFst set = X ++ Y := by
      rw [nonNullFst, h1]
      simp
    rw [h1s] at hnd
    exact hnd

/-! ### Dissection of the three mutators -/

theorem add_member_inv {F : Type} [Field F] (iscore : F) (s t : EigenTrustSet F)
    (pk : Nat) (h : add_member iscore s pk = some t) :
    (∀ q ∈ s.set, q.1 ≠ pk) ∧ ∃ k, ∃ hk : k < s.set.length,
      (s.set[k]).1 = nullPk ∧
      (∀ q (hq : q < s.set.length), q < k → (s.set[q]).1 ≠ nullPk) ∧
      t = ⟨s.set.set k (pk, iscore), s.ops⟩ := by
  unfold add_member at h
  split at h
  · cases h
  · rename_i hdup
    split at h
    · cases h
    · rename_i k hfree
      cases h
      rcases findIdx?_some_spec _ s.set k hfree with ⟨hk, hpk, hfirst⟩
      refine ⟨?_, k, hk, by simpa using hpk, ?_, rfl⟩
      · intro q hq hqpk
        rw [List.findIdx?_eq_none_iff] at hdup
        have := hdup q hq
        simp [hqpk] at this
      · intro q hq hlt
        have := hfirst q hq hlt
        simpa using this

theorem remove_member_inv {F : Type} [Field F] (s t : EigenTrustSet F)
    (pk : Nat) (h : remove_member s pk = some t) :
    ∃ k, ∃ hk : k < s.set.length,
      (s.set[k]).1 = pk ∧
      (∀ q (hq : q < s.set.length), q < k → (s.set[q]).1 ≠ pk) ∧
      t = ⟨s.set.set k (nullPk, 0),
        s.ops.filter (fun kv => kv.1 != pk)⟩ := by
  unfold remove_member at h
  split at h
  · cases h
  · rename_i k hpos
    cases h
    rcases findIdx?_some_spec _ s.set k hpos with ⟨hk, hpk, hfirst⟩
    refine ⟨k, hk, by simpa using hpk, ?_, rfl⟩
    intro q hq hlt
    have := hfirst q hq hlt
    simpa using this

theorem update_op_inv {F : Type} [Field F] (s t : EigenTrustSet F)
    (pk : Nat) (op : Opinion F) (h : update_op s pk op = some t) :
    (∃ q ∈ s.set, q.1 = pk) ∧ t = ⟨s.set, insertMap s.ops pk op⟩ := by
  unfold update_op at h
  split at h
  · cases h
  · rename_i k hpos
    cases h
    rcases findIdx?_some_spec _ s.set k hpos with ⟨hk, hpk, _⟩
    exact ⟨⟨s.set[k], List.getElem_mem hk, by simpa using hpk⟩, rfl⟩

theorem add_member_none_of_mem {F : Type} [Field F] (iscore : F)
    (s : EigenTrustSet F) (pk : Nat) (h : ∃ q ∈ s.set, q.1 = pk) :
    add_member iscore s pk = none := by
  unfold add_member
  split
  · rfl
  · rename_i hdup
    exfalso
    rcases h with ⟨q, hq, hq1⟩
    rw [List.findIdx?_eq_none_iff] at hdup
    have := hdup q hq
    simp [hq1] at this

theorem add_member_none_of_full {F : Type} [Field F] (iscore : F)
    (s : EigenTrustSet F) (pk : Nat)
    (hfull : ∀ q ∈ s.set, q.1 ≠ nullPk) :
    add_member iscore s pk = none := by
  unfold add_member
  split
  · rfl
  · have hfree : s.set.findIdx? (fun x => x.1 == nullPk) = none :=
      List.findIdx?_eq_none_iff.mpr (fun x hx => by simpa using hfull x hx)
    rw [hfree]

theorem add_member_some {F : Type} [Field F] (iscore : F)
    (s : EigenTrustSet F) (pk : Nat) (k : Nat) (hk : k < s.set.length)
    (hmem : ∀ q ∈ s.set, q.1 ≠ pk)
    (hnull : (s.set[k]).1 = nullPk)
    (hfirst : ∀ q (hq : q < s.set.length), q < k → (s.set[q]).1 ≠ nullPk) :
    add_member iscore s pk = some ⟨s.set.set k (pk, iscore), s.ops⟩ := by
  unfold add_member
  have hdup : s.set.findIdx? (fun x => x.1 == pk) = none :=
    List.findIdx?_eq_none_iff.mpr (fun x hx => by simpa using hmem x hx)
  rw [hdup]
  have hfree : s.set.findIdx? (fun x => x.1 == nullPk) = some k :=
    findIdx?_some_of _ s.set k hk (by simpa using hnull)
      (fun q hq hlt => by simpa using hfirst q hq hlt)
  rw [hfree]

theorem remove_member_none {F : Type} [Field F] (s : EigenTrustSet F) (pk : Nat)
    (hmem : ∀ q ∈ s.set, q.1 ≠ pk) : remove_member s pk = none := by
  unfold remove_member
  have hpos : s.set.findIdx? (fun x => x.1 == pk) = none :=
    List.findIdx?_eq_none_iff.mpr (fun x hx => by simpa using hmem x hx)
  rw [hpos]

theorem remove_member_some {F : Type} [Field F] (s : EigenTrustSet F) (pk : Nat)
    (k : Nat) (hk : k < s.set.length) (hpk : (s.set[k]).1 = pk)
    (hfirst : ∀ q (hq : q < s.set.length), q < k → (s.set[q]).1 ≠ pk) :
    remove_member s pk = some ⟨s.set.set k (nullPk, 0),
      s.ops.filter (fun kv => kv.1 != pk)⟩ := by
  unfold remove_member
  have hpos : s.set.findIdx? (fun x => x.1 == pk) = some k :=
    findIdx?_some_of _ s.set k hk (by simpa using hpk)
      (fun q hq hlt => by simpa using hfirst q hq hlt)
  rw [hpos]

theorem update_op_some {F : Type} [Field F] (s : EigenTrustSet F) (pk : Nat)
    (op : Opinion F) (hmem : ∃ q ∈ s.set, q.1 = pk) :
    update_op s pk op = some ⟨s.set, insertMap s.ops pk op⟩ := by
  unfold update_op
  split
  · rename_i hpos
    exfalso
    rcases hmem with ⟨q, hq, hq1⟩
    rw [List.findIdx?_eq_none_iff] at hpos
    have := hpos q hq
    simp [hq1] at this
  · rfl

theorem reachable_wellFormed {F : Type} [Field F] (N : Nat) (iscore : F) :
    ∀ s : EigenTrustSet F, Reachable N iscore s → wellFormed N s := by
  intro s h
  induction h with
  | new =>
    refine ⟨by simp [newSet], ?_, ?_⟩
    · intro p hp _
      have := (List.mem_replicate.mp (by simpa [newSet] using hp)).2
      rw [this]
    · have hempty : nonNullFst (newSet F N).set = [] := by
        rw [nonNullFst]
        rw [List.filter_eq_nil]
        intro a ha
        have ha2 : a = nullPk := by
          simp only [newSet, List.map_replicate] at ha
          exact (List.mem_replicate.mp ha).2
        simp [ha2]
      rw [hempty]
      exact List.nodup_nil
  | add hr hadd ih =>
    rename_i s0 t0 pk0
    obtain ⟨hmem, k, hk, hnull, hfirst, rfl⟩ := add_member_inv _ _ _ _ hadd
    obtain ⟨hlen, hnull0, hnd⟩ := ih
    refine ⟨by simpa using hlen, ?_, ?_⟩
    · intro p hp hpn
      rcases List.mem_or_eq_of_mem_set hp with hin | hpe
      · exact hnull0 p hin hpn
      · exfalso
        apply hmem (s0.set[k]) (List.getElem_mem hk)
        rw [hnull, ← hpn, hpe]
    · exact nonNullFst_set_nodup_add s0.set k hk pk0 iscore hnull
        (fun hc => by
          rcases List.mem_map.mp hc with ⟨q, hq, hq1⟩
          exact hmem q hq hq1) hnd
  | remove hr hrem ih =>
    rename_i s0 t0 pk0
    obtain ⟨k, hk, hpk, hfirst, rfl⟩ := remove_member_inv _ _ _ hrem
    obtain ⟨hlen, hnull0, hnd⟩ := ih
    refine ⟨by simpa using hlen, ?_,
      nonNullFst_set_nodup_remove s0.set k hk 0 hnd⟩
    intro p hp hpn
    rcases List.mem_or_eq_of_mem_set hp with hin | hpe
    · exact hnull0 p hin hpn
    · rw [hpe]
  | update hr hup ih =>
    obtain ⟨hmem, rfl⟩ := update_op_inv _ _ _ _ hup
    exact ih

/-! ### Determinism: converge depends on the opinion map only through lookups -/

theorem lookup_filter_self {F : Type} (m : List (Nat × Opinion F)) (k : Nat) :
    List.lookup k (m.filter (fun kv => kv.1 != k)) = none := by
  induction m with
  | nil => rfl
  | cons a t ih =>
    rw [List.filter_cons]
    by_cases hak : a.1 = k
    · rw [if_neg (by simp [hak])]
      exact ih
    · rw [if_pos (by simpa using hak)]
      obtain ⟨ak, av⟩ := a
      have hne : (k == ak) = false :=
        beq_eq_false_iff_ne.mpr (fun hkak => hak hkak.symm)
      simp only [List.lookup, hne]
      exact ih

theorem filterOpinion_congr {F : Type} [Field F] [DecidableEq F]
    (set : List (Nat × F)) (ops1 ops2 : List (Nat × Opinion F)) (N pkI : Nat)
    (h : ∀ q, List.lookup q ops1 = List.lookup q ops2) :
    filterOpinion set ops1 N pkI = filterOpinion set ops2 N pkI := by
  rw [filterOpinion, filterOpinion, h pkI]

theorem filterFold_congr {F : Type} [Field F] [DecidableEq F]
    (set : List (Nat × F)) (ops1 ops2 : List (Nat × Opinion F)) (N : Nat)
    (h : ∀ q, List.lookup q ops1 = List.lookup q ops2) :
    ∀ (l : List (Nat × F)) (acc : List (Nat × Opinion F)),
    filterFold set ops1 N l acc = filterFold set ops2 N l acc := by
  intro l
  induction l with
  | nil => intro acc; rfl
  | cons slot rest ih =>
    intro acc
    rw [filterFold, filterFold,
      filterOpinion_congr set ops1 ops2 N slot.1 h, ih]

theorem converge_congr {F : Type} [Field F] [DecidableEq F] (N numIter : Nat)
    (s t : EigenTrustSet F) (hset : s.set = t.set)
    (hops : ∀ q, List.lookup q s.ops = List.lookup q t.ops) :
    converge N numIter s = converge N numIter t := by
  rw [converge, converge, filter_peers_ops, filter_peers_ops, ← hset,
    filterFold_congr s.set s.ops t.ops N hops s.set []]

/-! ### Pointwise value of the fallback row -/

theorem distributeScores_getD_one {F : Type} [Field F] [DecidableEq F]
    (pkI : Nat) (scores : List (Nat × F)) (j : Nat) (hj : j < scores.length)
    (hsum : (scores.map Prod.snd).sum = 0)
    (hc : (scores.getD j (nullPk, 0)).1 ≠ pkI ∧
      (scores.getD j (nullPk, 0)).1 ≠ nullPk) :
    (distributeScores pkI scores).getD j (nullPk, 0) =
      ((scores.getD j (nullPk, 0)).1, 1) := by
  rw [List.getD_eq_getElem _ _ hj] at hc ⊢
  rw [distributeScores_of_zero pkI scores hsum,
    List.getD_eq_getElem _ _ (by simpa using hj), List.getElem_map, if_pos hc]

theorem correctScores_sum_zero_of_zero {F : Type} [Field F] (pkI : Nat)
    (set scores : List (Nat × F)) (hz : ∀ kv ∈ scores, kv.2 = 0) :
    ((correctScores pkI set scores).map Prod.snd).sum = 0 := by
  apply List.sum_eq_zero
  intro x hx
  rcases List.mem_map.mp hx with ⟨kv, hkv, hkvx⟩
  rcases List.mem_iff_getElem.mp hkv with ⟨j, hj, hkvj⟩
  have hjs : j < set.length := by rw [correctScores_length] at hj; omega
  have hjo : j < scores.length := by rw [correctScores_length] at hj; omega
  have he := correctScores_getElem pkI set scores j hj hjs hjo
  rw [← hkvx, ← hkvj, he]
  show (if set[j].1 ≠ scores[j].1 ∨ set[j].1 = nullPk ∨
      set[j].1 = pkI then (0 : F) else scores[j].2) = 0
  by_cases hcond : set[j].1 ≠ scores[j].1 ∨
      set[j].1 = nullPk ∨ set[j].1 = pkI
  · rw [if_pos hcond]
  · rw [if_neg hcond]
    exact hz _ (List.getElem_mem hjo)

theorem defaultOpinion_scores_zero {F : Type} [Field F] (N : Nat) :
    ∀ kv ∈ (defaultOpinion F N).scores, kv.2 = 0 := by
  intro kv hkv
  rw [(List.mem_replicate.mp hkv).2]

/-! ### Value of the normalized fallback weights -/

theorem rowSum_filterOpinion_of_zero {F : Type} [Field F] [DecidableEq F]
    (set : List (Nat × F)) (ops : List (Nat × Opinion F)) (N pkI : Nat)
    (hsum : ((correctScores pkI set
      ((List.lookup pkI ops).getD (defaultOpinion F N)).scores).map
        Prod.snd).sum = 0) :
    rowSum (filterOpinion set ops N pkI) =
      (((correctScores pkI set
        ((List.lookup pkI ops).getD (defaultOpinion F N)).scores).countP
          fun kv => decide (kv.1 ≠ pkI ∧ kv.1 ≠ nullPk) : Nat) : F) := by
  have h := sum_overwrite pkI
    (correctScores pkI set ((List.lookup pkI ops).getD (defaultOpinion F N)).scores)
    (correct_snd_zero_of_not_other set _ pkI)
  have hd : rowSum (filterOpinion set ops N pkI) =
      ((distributeScores pkI (correctScores pkI set
        ((List.lookup pkI ops).getD (defaultOpinion F N)).scores)).map
          Prod.snd).sum := by
    simp [rowSum, filterOpinion]
  rw [hd, distributeScores_of_zero pkI _ hsum]
  exact h

theorem countP_other_pos {F : Type} [Field F] (set scores : List (Nat × F))
    (pkI : Nat) (hlen : scores.length = set.length) (j : Nat)
    (hjs : j < set.length)
    (hother : (set[j]).1 ≠ nullPk ∧ (set[j]).1 ≠ pkI) :
    0 < (correctScores pkI set scores).countP
      (fun kv => decide (kv.1 ≠ pkI ∧ kv.1 ≠ nullPk)) := by
  apply List.countP_pos_iff.mpr
  have hjc : j < (correctScores pkI set scores).length := by
    rw [correctScores_length, hlen, min_self]
    exact hjs
  have hjo : j < scores.length := by rw [hlen]; exact hjs
  refine ⟨(correctScores pkI set scores)[j], List.getElem_mem _, ?_⟩
  have hfst : ((correctScores pkI set scores)[j]).1 = set[j].1 := by
    rw [correctScores_getElem pkI set scores j hjc hjs hjo, correctEntry_fst]
  simp [hfst, hother.1, hother.2]

theorem filterOpinion_getD_other_of_zero {F : Type} [Field F] [DecidableEq F]
    (set : List (Nat × F)) (ops : List (Nat × Opinion F)) (N pkI : Nat)
    (hset : set.length = N)
    (hops : ∀ op, List.lookup pkI ops = some op → op.scores.length = N)
    (hsum : ((correctScores pkI set
      ((List.lookup pkI ops).getD (defaultOpinion F N)).scores).map
        Prod.snd).sum = 0)
    (j : Nat) (hj : j < N)
    (hother : (set.getD j (nullPk, 0)).1 ≠ nullPk ∧
      (set.getD j (nullPk, 0)).1 ≠ pkI) :
    (filterOpinion set ops N pkI).scores.getD j (nullPk, 0) =
      ((set.getD j (nullPk, 0)).1, 1) := by
  have hsl := stored_scores_length ops N pkI hops
  have hcsl : (correctScores pkI set
      ((List.lookup pkI ops).getD (defaultOpinion F N)).scores).length = N := by
    rw [correctScores_length, hset, hsl, min_self]
  have hjc : j < (correctScores pkI set
      ((List.lookup pkI ops).getD (defaultOpinion F N)).scores).length := by
    omega
  have hjs : j < set.length := by omega
  have hfst : ((correctScores pkI set
      ((List.lookup pkI ops).getD (defaultOpinion F N)).scores).getD j
        (nullPk, 0)).1 = (set.getD j (nullPk, 0)).1 := by
    have hjo : j < ((List.lookup pkI ops).getD (defaultOpinion F N)).scores.length := by
      rw [hsl]; exact hj
    rw [List.getD_eq_getElem _ _ hjc,
      correctScores_getElem pkI set _ j hjc hjs hjo, correctEntry_fst,
      List.getD_eq_getElem _ _ hjs]
  have hone := distributeScores_getD_one pkI
    (correctScores pkI set ((List.lookup pkI ops).getD (defaultOpinion F N)).scores)
    j hjc hsum (by rw [hfst]; exact ⟨hother.2, hother.1⟩)
  show (distributeScores pkI (correctScores pkI set
    ((List.lookup pkI ops).getD (defaultOpinion F N)).scores)).getD j
      (nullPk, 0) = _
  rw [hone, hfst]

theorem normalized_weight_other {F : Type} [Field F] [DecidableEq F]
    (set : List (Nat × F)) (ops : List (Nat × Opinion F)) (N pkI : Nat)
    (hset : set.length = N)
    (hops : ∀ op, List.lookup pkI ops = some op → op.scores.length = N)
    (hsum : ((correctScores pkI set
      ((List.lookup pkI ops).getD (defaultOpinion F N)).scores).map
        Prod.snd).sum = 0)
    (j : Nat) (hj : j < N)
    (hother : (set.getD j (nullPk, 0)).1 ≠ nullPk ∧
      (set.getD j (nullPk, 0)).1 ≠ pkI) :
    ((normalizeOpinion (filterOpinion set ops N pkI)).scores.getD j
      (nullPk, 0)).2 =
      invOrZero ((((correctScores pkI set
        ((List.lookup pkI ops).getD (defaultOpinion F N)).scores).countP
          fun kv => decide (kv.1 ≠ pkI ∧ kv.1 ≠ nullPk) : Nat) : F)) := by
  have hfl := filterOpinion_scores_length set ops N pkI hset hops
  rw [normalizeOpinion_snd_getD _ j (by omega),
    filterOpinion_getD_other_of_zero set ops N pkI hset hops hsum j hj hother,
    rowSum_filterOpinion_of_zero set ops N pkI hsum, one_mul]

/-! ### Claim theorems -/

/-- C10: `add_member` called with the NULL/default identity fails (panics) in
every TrustSet state — when a free slot exists the NULL sentinel trips the
duplicate-membership check, and when the set is full the `unwrap` of the first
free slot panics — so the NULL sentinel can never occupy a slot as a live
member. -/
theorem add_member_null_fails {F : Type} [Field F] (iscore : F)
    (s : EigenTrustSet F) : add_member iscore s nullPk = none := by
  unfold add_member
  cases h : s.set.findIdx? (fun x => x.1 == nullPk) with
  | some i => rfl
  | none => rfl

/-- C7: `add_member pk` fails when `pk` already occupies a slot (so a second
`add_member pk` without an intervening removal fails), fails when every slot
is non-NULL (capacity exceeded), and otherwise writes `(pk, INITIAL_SCORE)`
into the lowest-index NULL slot `k`, leaving every other slot (the `List.set`
at `k`) and the stored opinions (`s.ops`) unchanged. -/
theorem add_member_spec {F : Type} [Field F] (iscore : F)
    (s : EigenTrustSet F) (pk : Nat) :
    ((∃ q ∈ s.set, q.1 = pk) → add_member iscore s pk = none) ∧
    ((∀ q ∈ s.set, q.1 ≠ nullPk) → add_member iscore s pk = none) ∧
    (∀ k (hk : k < s.set.length),
      (∀ q ∈ s.set, q.1 ≠ pk) → (s.set[k]).1 = nullPk →
      (∀ q (hq : q < s.set.length), q < k → (s.set[q]).1 ≠ nullPk) →
      add_member iscore s pk = some ⟨s.set.set k (pk, iscore), s.ops⟩) :=
  ⟨add_member_none_of_mem iscore s pk,
   add_member_none_of_full iscore s pk,
   fun k hk hmem hnull hfirst => add_member_some iscore s pk k hk hmem hnull hfirst⟩

theorem add_member_spec_witness :
    (add_member (5 : ZMod 11) wS2 1 = none) ∧
    (add_member (5 : ZMod 11) wSFull 4 = none) ∧
    (add_member (5 : ZMod 11) wS2 7 = some ⟨wS2.set.set 2 (7, 5), wS2.ops⟩) :=
  ⟨(add_member_spec (5 : ZMod 11) wS2 1).1 (by decide),
   (add_member_spec (5 : ZMod 11) wSFull 4).2.1 (by decide),
   (add_member_spec (5 : ZMod 11) wS2 7).2.2 2 (by decide) (by decide)
     (by decide) (by decide)⟩

/-- C8: `remove_member pk` fails when `pk` is not a member; otherwise it
resets exactly `pk`'s slot to `(NULL, 0)`, deletes the stored opinion for
`pk` (its lookup in the new opinion map is `none`) while every other member's
opinion is unchanged, and the freed slot makes a future `add_member` of any
fresh identity succeed. -/
theorem remove_member_spec {F : Type} [Field F] (iscore : F)
    (s : EigenTrustSet F) (pk : Nat) :
    ((∀ q ∈ s.set, q.1 ≠ pk) → remove_member s pk = none) ∧
    (∀ k (hk : k < s.set.length), (s.set[k]).1 = pk →
      (∀ q (hq : q < s.set.length), q < k → (s.set[q]).1 ≠ pk) →
      remove_member s pk = some ⟨s.set.set k (nullPk, 0),
        s.ops.filter (fun kv => kv.1 != pk)⟩ ∧
      List.lookup pk (s.ops.filter (fun kv => kv.1 != pk)) = none ∧
      (∀ q, q ≠ pk → List.lookup q (s.ops.filter (fun kv => kv.1 != pk)) =
        List.lookup q s.ops) ∧
      (∀ pk2, pk2 ∉ (s.set.set k (nullPk, 0)).map Prod.fst →
        ∃ t2, add_member iscore ⟨s.set.set k (nullPk, 0),
          s.ops.filter (fun kv => kv.1 != pk)⟩ pk2 = some t2)) := by
  refine ⟨remove_member_none s pk, ?_⟩
  intro k hk hpk hfirst
  refine ⟨remove_member_some s pk k hk hpk hfirst, lookup_filter_self s.ops pk,
    fun q hq => lookup_filter_ne s.ops pk q hq, ?_⟩
  intro pk2 hpk2
  have hdup : (s.set.set k (nullPk, 0)).findIdx? (fun x => x.1 == pk2) = none := by
    apply List.findIdx?_eq_none_iff.mpr
    intro x hx
    have hxf : x.1 ∈ (s.set.set k (nullPk, 0)).map Prod.fst :=
      List.mem_map_of_mem Prod.fst hx
    have hne : x.1 ≠ pk2 := fun hc => hpk2 (hc ▸ hxf)
    simpa using hne
  cases hfree : (s.set.set k (nullPk, 0)).findIdx? (fun x => x.1 == nullPk) with
  | none =>
    exfalso
    rw [List.findIdx?_eq_none_iff] at hfree
    have hmemk : ((nullPk, 0) : Nat × F) ∈ s.set.set k (nullPk, 0) :=
      List.mem_set s.set k (by omega) _
    have := hfree _ hmemk
    simp at this
  | some k2 =>
    refine ⟨⟨(s.set.set k (nullPk, 0)).set k2 (pk2, iscore),
      s.ops.filter (fun kv => kv.1 != pk)⟩, ?_⟩
    unfold add_member
    rw [hdup, hfree]

theorem remove_member_spec_witness :
    (remove_member wS5 7 = none) ∧
    (remove_member wS5 1 = some ⟨wS5.set.set 0 (nullPk, 0),
      wS5.ops.filter (fun kv => kv.1 != 1)⟩) ∧
    (List.lookup 1 (wS5.ops.filter (fun kv => kv.1 != 1)) = none) ∧
    (∃ t2, add_member (5 : ZMod 11) ⟨wS5.set.set 0 (nullPk, 0),
      wS5.ops.filter (fun kv => kv.1 != 1)⟩ 9 = some t2) := by
  have h := remove_member_spec (5 : ZMod 11) wS5 1
  have h2 := h.2 0 (by decide) (by decide) (by decide)
  exact ⟨(remove_member_spec (5 : ZMod 11) wS5 7).1 (by decide),
    h2.1, h2.2.1, h2.2.2.2 9 (by decide)⟩

/-- C9: Determinism and purity of `converge` — two converge calls on equal
TrustSet states (same slot table, opinion maps equal as maps, whatever their
internal representation) return identical score vectors; in this embedding
`converge` is a pure function of the state, which it does not modify. -/
theorem converge_deterministic {F : Type} [Field F] [DecidableEq F]
    (N numIter : Nat) (s t : EigenTrustSet F) (hset : s.set = t.set)
    (hops : ∀ q, List.lookup q s.ops = List.lookup q t.ops) :
    converge N numIter s = converge N numIter t :=
  converge_congr N numIter s t hset hops

theorem converge_deterministic_witness :
    converge 3 2 wS9a = converge 3 2 wS9b := by
  apply converge_deterministic 3 2 wS9a wS9b rfl
  intro q
  by_cases h1 : q = 1
  · subst h1; decide
  · by_cases h2 : q = 2
    · subst h2; decide
    · have b1 : (q == (1 : Nat)) = false := beq_eq_false_iff_ne.mpr h1
      have b2 : (q == (2 : Nat)) = false := beq_eq_false_iff_ne.mpr h2
      show List.lookup q wS9a.ops = List.lookup q wS9b.ops
      simp only [wS9a, wS9b, List.lookup, b1, b2]

/-! ### Reachability of the concrete fixtures -/

theorem wS1_step : add_member (5 : ZMod 11) (newSet (ZMod 11) 3) 1 = some wS1 := by
  decide

theorem wS2_step : add_member (5 : ZMod 11) wS1 2 = some wS2 := by
  decide

theorem wS5_step : update_op wS2 1 wOp9 = some wS5 := by
  decide

theorem wS2_reachable : Reachable 3 (5 : ZMod 11) wS2 :=
  Reachable.add (Reachable.add Reachable.new wS1_step) wS2_step

theorem wS5_reachable : Reachable 3 (5 : ZMod 11) wS5 :=
  Reachable.update wS2_reachable wS5_step

/-- C1: Conservation — for every TrustSet state reachable by any sequence of
`add_member` / `remove_member` / `update_op` calls that leaves at least 2
non-NULL members, with every stored opinion having exactly `N` score entries
(and `N` below the field characteristic, as `NUM_NEIGHBOURS` always is for
`Fr`), `converge` returns normally and the sum of the returned score vector
equals, exactly in the field, the sum of the member scores held in the set
immediately before the call; in particular the internal conservation
assertion never fires. -/
theorem conservation_reachable {F : Type} [Field F] [DecidableEq F]
    (N numIter : Nat) (iscore : F) (s : EigenTrustSet F)
    (hreach : Reachable N iscore s) (hops : opsLenOK N s)
    (hchar : ∀ m : Nat, 0 < m → m ≤ N → ((m : Nat) : F) ≠ 0)
    (hq : 2 ≤ validPeersCount s.set) :
    ∃ v, converge N numIter s = some v ∧
      v.sum = (s.set.map Prod.snd).sum := by
  rcases converge_conserves N numIter s
    (reachable_wellFormed N iscore s hreach) hops hchar hq with ⟨v, h1, _, h3, _⟩
  exact ⟨v, h1, h3⟩

theorem conservation_reachable_witness :
    ∃ v, converge 3 2 wS5 = some v ∧
      v.sum = (wS5.set.map Prod.snd).sum := by
  apply conservation_reachable 3 2 (5 : ZMod 11) wS5 wS5_reachable
  · intro pk op h
    have h1 : List.lookup pk wS5.ops = some op := h
    by_cases hpk : pk = 1
    · subst hpk
      rw [show List.lookup 1 wS5.ops = some wOp9 from by decide] at h1
      cases h1
      decide
    · rw [show List.lookup pk wS5.ops =
          (match pk == 1 with
           | true => some wOp9
           | false => none) from rfl] at h1
      rw [beq_eq_false_iff_ne.mpr hpk] at h1
      cases h1
  · intro m hm1 hm2
    interval_cases m <;> decide
  · decide

/-- C2: Minimum quorum and totality — `converge` fails (the quorum assertion
panics) whenever the set holds fewer than 2 non-NULL members; on every
reachable state with at least 2 non-NULL members whose stored opinions all
have exactly `N` score entries, `converge` returns normally whatever
combination of missing, all-zero, zero-sum, misaligned or self-rating
opinions is stored: sanitization and normalization never fail, a zero score
sum being normalized with its inverse treated as zero. -/
theorem quorum_and_totality {F : Type} [Field F] [DecidableEq F]
    (N numIter : Nat) (iscore : F) (s : EigenTrustSet F) :
    (validPeersCount s.set < 2 → converge N numIter s = none) ∧
    (Reachable N iscore s → opsLenOK N s →
      (∀ m : Nat, 0 < m → m ≤ N → ((m : Nat) : F) ≠ 0) →
      2 ≤ validPeersCount s.set → ∃ v, converge N numIter s = some v) := by
  constructor
  · exact converge_fails_lt_two N numIter s
  · intro hreach hops hchar hq
    rcases converge_conserves N numIter s
      (reachable_wellFormed N iscore s hreach) hops hchar hq with ⟨v, h1, _⟩
    exact ⟨v, h1⟩

theorem quorum_and_totality_witness :
    (converge 3 2 wS1 = none) ∧ (∃ v, converge 3 2 wS5 = some v) := by
  constructor
  · exact (quorum_and_totality 3 2 (5 : ZMod 11) wS1).1 (by decide)
  · apply (quorum_and_totality 3 2 (5 : ZMod 11) wS5).2 wS5_reachable
    · intro pk op h
      have h1 : List.lookup pk wS5.ops = some op := h
      by_cases hpk : pk = 1
      · subst hpk
        rw [show List.lookup 1 wS5.ops = some wOp9 from by decide] at h1
        cases h1
        decide
      · rw [show List.lookup pk wS5.ops =
            (match pk == 1 with
             | true => some wOp9
             | false => none) from rfl] at h1
        rw [beq_eq_false_iff_ne.mpr hpk] at h1
        cases h1
    · intro m hm1 hm2
      interval_cases m <;> decide
    · decide

/-- C3: Bootstrap fallback — for every non-NULL member with no stored opinion
(or whose corrected scores sum to zero), after sanitization and normalization
that member's opinion assigns the same nonzero weight to every other non-NULL
member position and zero to its own position and to every NULL slot. -/
theorem bootstrap_fallback {F : Type} [Field F] [DecidableEq F]
    (N : Nat) (s : EigenTrustSet F) (pkI : Nat)
    (hset : s.set.length = N)
    (hmem : pkI ∈ s.set.map Prod.fst) (hpkI : pkI ≠ nullPk)
    (hops : ∀ op, List.lookup pkI s.ops = some op → op.scores.length = N)
    (hchar : ∀ m : Nat, 0 < m → m ≤ N → ((m : Nat) : F) ≠ 0)
    (hnoop : List.lookup pkI s.ops = none ∨
      ((correctScores pkI s.set
        ((List.lookup pkI s.ops).getD (defaultOpinion F N)).scores).map
          Prod.snd).sum = 0) :
    (∀ j (hj : j < N),
      (s.set.getD j (nullPk, 0)).1 ≠ nullPk →
      (s.set.getD j (nullPk, 0)).1 ≠ pkI →
      ((normalizeOpinion (filterOpinion s.set s.ops N pkI)).scores.getD j
        (nullPk, 0)).2 ≠ 0) ∧
    (∀ j1 j2 (hj1 : j1 < N) (hj2 : j2 < N),
      ((s.set.getD j1 (nullPk, 0)).1 ≠ nullPk ∧
        (s.set.getD j1 (nullPk, 0)).1 ≠ pkI) →
      ((s.set.getD j2 (nullPk, 0)).1 ≠ nullPk ∧
        (s.set.getD j2 (nullPk, 0)).1 ≠ pkI) →
      ((normalizeOpinion (filterOpinion s.set s.ops N pkI)).scores.getD j1
        (nullPk, 0)).2 =
      ((normalizeOpinion (filterOpinion s.set s.ops N pkI)).scores.getD j2
        (nullPk, 0)).2) ∧
    (∀ j (hj : j < N),
      ((s.set.getD j (nullPk, 0)).1 = nullPk ∨
        (s.set.getD j (nullPk, 0)).1 = pkI) →
      ((normalizeOpinion (filterOpinion s.set s.ops N pkI)).scores.getD j
        (nullPk, 0)).2 = 0) := by
  have hsum0 : ((correctScores pkI s.set
      ((List.lookup pkI s.ops).getD (defaultOpinion F N)).scores).map
        Prod.snd).sum = 0 := by
    rcases hnoop with hnone | hz
    · rw [hnone]
      exact correctScores_sum_zero_of_zero pkI s.set _
        (defaultOpinion_scores_zero N)
    · exact hz
  have hsl := stored_scores_length s.ops N pkI hops
  have hfl := filterOpinion_scores_length s.set s.ops N pkI hset hops
  have hweight : ∀ j (hj : j < N),
      (s.set.getD j (nullPk, 0)).1 ≠ nullPk →
      (s.set.getD j (nullPk, 0)).1 ≠ pkI →
      ((normalizeOpinion (filterOpinion s.set s.ops N pkI)).scores.getD j
        (nullPk, 0)).2 =
      invOrZero ((((correctScores pkI s.set
        ((List.lookup pkI s.ops).getD (defaultOpinion F N)).scores).countP
          fun kv => decide (kv.1 ≠ pkI ∧ kv.1 ≠ nullPk) : Nat) : F)) := by
    intro j hj h1 h2
    exact normalized_weight_other s.set s.ops N pkI hset hops hsum0 j hj ⟨h1, h2⟩
  have hmpos : ∀ j (hj : j < N),
      (s.set.getD j (nullPk, 0)).1 ≠ nullPk →
      (s.set.getD j (nullPk, 0)).1 ≠ pkI →
      (((correctScores pkI s.set
        ((List.lookup pkI s.ops).getD (defaultOpinion F N)).scores).countP
          (fun kv => decide (kv.1 ≠ pkI ∧ kv.1 ≠ nullPk)) : Nat) : F) ≠ 0 := by
    intro j hj h1 h2
    have hjs : j < s.set.length := by omega
    rw [List.getD_eq_getElem _ _ hjs] at h1 h2
    apply hchar
    · exact countP_other_pos s.set _ pkI (by rw [hsl, hset]) j hjs ⟨h1, h2⟩
    · calc (correctScores pkI s.set
          ((List.lookup pkI s.ops).getD (defaultOpinion F N)).scores).countP _ ≤
          (correctScores pkI s.set
            ((List.lookup pkI s.ops).getD (defaultOpinion F N)).scores).length :=
          List.countP_le_length _
        _ = N := by rw [correctScores_length, hset, hsl, min_self]
  refine ⟨?_, ?_, ?_⟩
  · intro j hj h1 h2
    rw [hweight j hj h1 h2, invOrZero, if_neg (hmpos j hj h1 h2)]
    exact inv_ne_zero (hmpos j hj h1 h2)
  · intro j1 j2 hj1 hj2 hc1 hc2
    rw [hweight j1 hj1 hc1.1 hc1.2, hweight j2 hj2 hc2.1 hc2.2]
  · intro j hj hc
    rw [normalizeOpinion_snd_getD _ j (by omega),
      filterOpinion_snd_zero s.set s.ops N pkI hset hops j hj hc, zero_mul]

theorem bootstrap_fallback_witness :
    ((normalizeOpinion (filterOpinion wS2.set wS2.ops 3 1)).scores.getD 1
      (nullPk, 0)).2 ≠ 0 ∧
    ((normalizeOpinion (filterOpinion wS2.set wS2.ops 3 1)).scores.getD 0
      (nullPk, 0)).2 = 0 ∧
    ((normalizeOpinion (filterOpinion wS2.set wS2.ops 3 1)).scores.getD 2
      (nullPk, 0)).2 = 0 := by
  have h := bootstrap_fallback 3 wS2 1 (by decide) (by decide) (by decide)
    (by intro op hop; simp [wS2, List.lookup] at hop)
    (by intro m hm1 hm2; interval_cases m <;> decide)
    (Or.inl (by decide))
  exact ⟨h.1 1 (by decide) (by decide) (by decide),
    h.2.2 0 (by decide) (Or.inr (by decide)),
    h.2.2 2 (by decide) (Or.inl (by decide))⟩

/-- C4: Self-rating exclusion — for every non-NULL member `pkI` and every
submitted scores sequence, after the full sanitization pass (including the
zero-sum redistribution fallback) the score at any position whose canonical
identity equals `pkI`'s own identity is zero. -/
theorem self_rating_exclusion {F : Type} [Field F] [DecidableEq F]
    (N : Nat) (s : EigenTrustSet F) (pkI j : Nat)
    (hset : s.set.length = N)
    (hmem : pkI ∈ s.set.map Prod.fst) (hpkI : pkI ≠ nullPk)
    (hops : ∀ op, List.lookup pkI s.ops = some op → op.scores.length = N)
    (hj : j < N) (hself : (s.set.getD j (nullPk, 0)).1 = pkI) :
    ((filterOpinion s.set s.ops N pkI).scores.getD j (nullPk, 0)).2 = 0 :=
  filterOpinion_snd_zero s.set s.ops N pkI hset hops j hj (Or.inr hself)

theorem self_rating_exclusion_witness :
    ((filterOpinion wS5.set wS5.ops 3 1).scores.getD 0 (nullPk, 0)).2 = 0 := by
  apply self_rating_exclusion 3 wS5 1 0 (by decide) (by decide) (by decide)
    ?_ (by decide) (by decide)
  intro op h
  rw [show List.lookup 1 wS5.ops = some wOp9 from by decide] at h
  cases h
  decide

/-- C5 counterexample: in the reachable state `wS5` member 1's submitted
identity at position 1 (namely 9) differs from the canonical identity 2, yet
after the full sanitization pass the score at position 1 is not zero: the
misalignment zeroed every score, so the zero-sum fallback overwrote position
1 with weight 1. -/
theorem alignment_repair_counterexample :
    (List.lookup 1 wS5.ops = some wOp9) ∧
    ((wOp9.scores.getD 1 (nullPk, 0)).1 ≠ (wS5.set.getD 1 (nullPk, 0)).1) ∧
    ((filterOpinion wS5.set wS5.ops 3 1).scores.getD 1 (nullPk, 0)).2 ≠ 0 := by
  decide

/-- C5 (amended): for every non-NULL member's stored opinion with exactly `N`
score entries, the sanitized opinion's identity at every position equals the
canonical one (in particular a differing submitted identity is rewritten, and
an agreeing one is kept); and at every position where the submitted identity
differs from the canonical one the sanitized score is zero, provided the
corrected scores of that opinion do not sum to zero (when they do, the
zero-sum fallback may overwrite such a position with weight 1). -/
theorem alignment_repair {F : Type} [Field F] [DecidableEq F]
    (N : Nat) (s : EigenTrustSet F) (pkI : Nat) (op : Opinion F)
    (hset : s.set.length = N) (hop : List.lookup pkI s.ops = some op)
    (hlen : op.scores.length = N) :
    (∀ j (hj : j < N),
      ((filterOpinion s.set s.ops N pkI).scores.getD j (nullPk, 0)).1 =
        (s.set.getD j (nullPk, 0)).1) ∧
    (∀ j (hj : j < N),
      (op.scores.getD j (nullPk, 0)).1 ≠ (s.set.getD j (nullPk, 0)).1 →
      ((correctScores pkI s.set op.scores).map Prod.snd).sum ≠ 0 →
      ((filterOpinion s.set s.ops N pkI).scores.getD j (nullPk, 0)).2 = 0) := by
  have hops2 : ∀ op2, List.lookup pkI s.ops = some op2 →
      op2.scores.length = N := by
    intro op2 h2
    rw [hop] at h2
    cases h2
    exact hlen
  constructor
  · intro j hj
    exact filterOpinion_fst_getD s.set s.ops N pkI hset hops2 j hj
  · intro j hj hmism hsum
    have hstored : (List.lookup pkI s.ops).getD (defaultOpinion F N) = op := by
      rw [hop]
      rfl
    have hcsl : (correctScores pkI s.set op.scores).length = N := by
      rw [correctScores_length, hset, hlen, min_self]
    have hjc : j < (correctScores pkI s.set op.scores).length := by omega
    have hjs : j < s.set.length := by omega
    have hjo : j < op.scores.length := by omega
    show ((distributeScores pkI (correctScores pkI s.set
      ((List.lookup pkI s.ops).getD (defaultOpinion F N)).scores)).getD j
        (nullPk, 0)).2 = 0
    rw [hstored, distributeScores_of_ne_zero pkI _ hsum,
      List.getD_eq_getElem _ _ hjc,
      correctScores_getElem pkI s.set op.scores j hjc hjs hjo]
    apply correctEntry_snd_zero
    left
    rw [List.getD_eq_getElem _ _ hjo, List.getD_eq_getElem _ _ hjs] at hmism
    exact fun hc => hmism hc.symm

theorem alignment_repair_witness :
    (((filterOpinion wS5b.set wS5b.ops 3 1).scores.getD 0 (nullPk, 0)).1 =
      (wS5b.set.getD 0 (nullPk, 0)).1) ∧
    (((filterOpinion wS5b.set wS5b.ops 3 1).scores.getD 1 (nullPk, 0)).1 =
      (wS5b.set.getD 1 (nullPk, 0)).1) ∧
    (((filterOpinion wS5b.set wS5b.ops 3 1).scores.getD 0 (nullPk, 0)).2 = 0) := by
  have h := alignment_repair 3 wS5b 1 wOp5b (by decide) (by decide) (by decide)
  exact ⟨h.1 0 (by decide), h.1 1 (by decide),
    h.2 0 (by decide) (by decide) (by decide)⟩

/-- C6: NULL-slot exclusion — in every state whose slot table has length `N`,
NULL slots carry score zero (as in every reachable state, including a slot
just freed by `remove_member`) and stored opinions have `N` entries: every
member's sanitized opinion has score zero at each NULL position, the score
vector returned by a succeeding `converge` is zero at each NULL position,
and an identity occupying no slot (such as a removed member) has no entry in
the sanitized-opinion map at all. -/
theorem null_slot_exclusion {F : Type} [Field F] [DecidableEq F]
    (N numIter : Nat) (s : EigenTrustSet F) (j : Nat)
    (hset : s.set.length = N) (hnull0 : nullSlotsZero s.set)
    (hops : opsLenOK N s)
    (hj : j < N) (hjn : (s.set.getD j (nullPk, 0)).1 = nullPk) :
    (∀ pkI, ((filterOpinion s.set s.ops N pkI).scores.getD j
      (nullPk, 0)).2 = 0) ∧
    (∀ v, converge N numIter s = some v → v.getD j 0 = 0) ∧
    (∀ pk, pk ∉ s.set.map Prod.fst →
      List.lookup pk (filter_peers_ops N s) = none) := by
  refine ⟨?_, ?_, ?_⟩
  · intro pkI
    exact filterOpinion_snd_zero s.set s.ops N pkI hset (hops pkI) j hj
      (Or.inl hjn)
  · intro v hv
    rcases converge_nullZero N numIter s v hset hnull0 hops hv with ⟨_, hz⟩
    exact hz j (by omega) hjn
  · intro pk hpk
    rw [lookup_filter_peers_ops, if_neg (fun hc => hpk hc.2)]

theorem null_slot_exclusion_witness :
    (((filterOpinion wS2.set wS2.ops 3 1).scores.getD 2 (nullPk, 0)).2 = 0) ∧
    (List.lookup 7 (filter_peers_ops 3 wS2) = none) := by
  have h := null_slot_exclusion 3 2 wS2 2 (by decide)
    (by unfold nullSlotsZero; decide)
    (by intro pk op hop; simp [wS2, List.lookup] at hop)
    (by decide) (by decide)
  exact ⟨h.1 1, h.2.2 7 (by decide)⟩
